import Mathlib

/-!
# Verification of RimSort's metadata core

A shallow embedding, in Lean 4, of the central algorithms of the RimSort
metadata subsystem:

* `DynamicQuery.__chunks` (src/util/steam/webapi/wrapper.py), the batching
  helper used by `IPublishedFileService_GetDetails`;
* `recursively_update_dict` (src/app/utils/metadata.py), the recursive merge
  used by `SteamDatabaseBuilder._output_database` to update a persisted
  curated database with a fresh query result;
* `MetadataManager.compile_metadata` together with its helpers
  `add_dependency_to_mod`, `add_incompatibility_to_mod`,
  `add_load_rule_to_mod` and `process_external_rules`
  (src/app/utils/metadata.py);
* `get_mods_from_list` (src/app/utils/metadata.py), the duplicate resolver
  and active/inactive list builder.

Python dictionaries are embedded as association lists in insertion order
(Python dicts preserve insertion order and have unique keys); Python sets of
hashable values are embedded as `Finset`s (membership is the only observable
used by the code); fallible code is embedded with `Except`.
-/

namespace RimSort

/-! ## `DynamicQuery.__chunks` (wrapper.py lines 194-202)

```python
def __chunks(self, _list: list, limit: int):
    for i in range(0, len(_list), limit):
        yield _list[i : i + limit]
```

The generator yields the consecutive slices `_list[0:limit]`,
`_list[limit:2*limit]`, ... . The only call site
(`IPublishedFileService_GetDetails`, wrapper.py line 300) uses `limit = 215`.
A `limit` of `0` would make `range` raise `ValueError`; we render that case
as an empty chunk list since no call site exercises it. -/

def chunks {α : Type} : List α → Nat → List (List α)
  | [], _ => []
  | _ :: _, 0 => []
  | a :: l, limit + 1 => (a :: l).take (limit + 1) :: chunks ((a :: l).drop (limit + 1)) (limit + 1)
termination_by l _ => l.length
decreasing_by
  simp only [List.length_drop, List.length_cons]
  omega

theorem chunks_join {α : Type} (l : List α) (limit : Nat) (h : 0 < limit) :
    (chunks l limit).flatten = l := by
  induction l, limit using chunks.induct with
  | case1 => simp [chunks]
  | case2 => omega
  | case3 a l k ih =>
      rw [chunks]
      simp only [List.flatten_cons]
      rw [ih (by omega)]
      exact List.take_append_drop _ _

theorem chunks_length_le {α : Type} (l : List α) (limit : Nat)
    (c : List α) (hc : c ∈ chunks l limit) : c.length ≤ limit := by
  induction l, limit using chunks.induct with
  | case1 => simp [chunks] at hc
  | case2 a l => simp [chunks] at hc
  | case3 a l k ih =>
      rw [chunks] at hc
      rcases List.mem_cons.mp hc with h | h
      · subst h; simp
      · exact ih h

theorem chunks_ne_nil {α : Type} (l : List α) (limit : Nat)
    (c : List α) (hc : c ∈ chunks l limit) : c ≠ [] := by
  induction l, limit using chunks.induct with
  | case1 => simp [chunks] at hc
  | case2 a l => simp [chunks] at hc
  | case3 a l k ih =>
      rw [chunks] at hc
      rcases List.mem_cons.mp hc with h | h
      · subst h; simp
      · exact ih h

/-- C10: `IPublishedFileService_GetDetails` splits its PublishedFileId list
into consecutive batches of at most 215 ids (`self.__chunks(publishedfileids,
215)`, wrapper.py lines 300-302); the concatenation of the batches in order
is the original list, so every id occurs in exactly one batch (at its
original position). -/
theorem C10_chunks_partition (ids : List String) :
    ((chunks ids 215).flatten = ids) ∧
      (∀ b ∈ chunks ids 215, b.length ≤ 215 ∧ b ≠ []) := by
  refine ⟨chunks_join ids 215 (by omega), fun b hb => ?_⟩
  exact ⟨chunks_length_le ids 215 b hb, chunks_ne_nil ids 215 b hb⟩

/-- Witness for C10 at a concrete input: a 3-element list with batch size
215 comes back as one batch. -/
theorem C10_chunks_partition_witness :
    ((chunks ["1", "2", "3"] 215).flatten = ["1", "2", "3"]) ∧
      (∀ b ∈ chunks ["1", "2", "3"] 215, b.length ≤ 215 ∧ b ≠ []) :=
  C10_chunks_partition ["1", "2", "3"]

/-! ## JSON trees and `recursively_update_dict` (metadata.py lines 2031-2077)

The persisted external database is a JSON tree: every value is either a
scalar (string/number/... — their identity is irrelevant to the merge, which
only distinguishes "dict" from "not a dict", so scalars are embedded as
`prim` carrying a rendering) or a JSON object, embedded as an association
list in insertion order. -/

inductive JVal where
  | prim (s : String)
  | obj (fields : List (String × JVal))

abbrev JObj := List (String × JVal)

/-- `a_dict.get(key)` / `key in a_dict` on an insertion-ordered dict. -/
def getVal : JObj → String → Option JVal
  | [], _ => none
  | (k, v) :: l, k' => if k = k' then some v else getVal l k'

/-- `a_dict[key] = value`: overwrite in place if the key exists (keeping its
position), else append at the end. -/
def setVal : JObj → String → JVal → JObj
  | [], k, v => [(k, v)]
  | (k0, v0) :: l, k, v => if k0 = k then (k0, v) :: l else (k0, v0) :: setVal l k v

/-- `isinstance(value, dict) and not value`. -/
def isEmptyObj : JVal → Bool
  | .obj [] => true
  | _ => false

/-- `del a_dict[key]` (dict keys are unique, so removing every entry with the
key is the same operation). -/
def eraseKey (a : JObj) (k : String) : JObj :=
  a.filter (fun p => !(p.1 == k))

/-- metadata.py lines 2038-2041: every key of `a_dict` that is absent from
`b_dict` and lies in a *non-empty* `recurse_exceptions` (the Python test
`if recurse_exceptions and key in recurse_exceptions` is false for an empty
exception list) is deleted. The Python loop iterates one deletion per key of
the set difference; the deletions commute, so this is a filter. -/
def delMissingExceptions (re : List String) (a b : JObj) : JObj :=
  a.filter (fun p => !(!re.isEmpty && re.contains p.1 && (getVal b p.1).isNone))

/-- metadata.py lines 2062-2071: drop every key whose merged value is an
empty dict, unless the key is in `prune_exceptions` (the call sites always
pass a list, never `None`, so the `prune_exceptions is None` disjunct of the
Python condition is always false). -/
def pruneEmpty (pe : List String) (a : JObj) : JObj :=
  a.filter (fun p => !(isEmptyObj p.2 && !pe.contains p.1))

/-- metadata.py lines 2072-2076: delete every key of the purge list. -/
def purgeKeys (pu : List String) (a : JObj) : JObj :=
  pu.foldl eraseKey a

mutual

/-- `recursively_update_dict(a_dict, b_dict, prune_exceptions,
purge_keys, recurse_exceptions)` (metadata.py lines 2031-2077). The Python
function updates `a_dict` in place; the embedding returns the updated tree. -/
def rud (pe pu re : List String) (a b : JObj) : JObj :=
  purgeKeys pu (pruneEmpty pe (rudItems pe pu re (delMissingExceptions re a b) b))
termination_by (sizeOf b, 2)
decreasing_by
  exact Prod.Lex.right _ (by omega)

/-- metadata.py lines 2043-2061: the `for key, value in b_dict.items()` loop;
each iteration rebinds `a_dict[key]` to the value given by `mergedValue`. -/
def rudItems (pe pu re : List String) : JObj → List (String × JVal) → JObj
  | a, [] => a
  | a, (k, v) :: rest =>
      rudItems pe pu re (setVal a k (mergedValue pe pu re k (getVal a k) v)) rest
termination_by _ items => (sizeOf items, 1)
decreasing_by
  all_goals apply Prod.Lex.left
  all_goals simp
  all_goals omega

/-- The value one iteration of the merge loop binds at key `k` (metadata.py
lines 2043-2061): a key of a non-empty `recurse_exceptions` takes the fresh
value wholesale; otherwise, when the key exists in `a_dict` and both values
are dicts, the recursive merge; otherwise the fresh value. (When either value
is not a dict, the exception test makes no difference — both the `if` branch
and the `else` branch assign the fresh value — so it is only consulted in the
both-dicts arm.) -/
def mergedValue (pe pu re : List String) (k : String) :
    Option JVal → JVal → JVal
  | none, v => v
  | some (.prim _), v => v
  | some (.obj _), .prim s => .prim s
  | some (.obj asub), .obj bsub =>
      if !re.isEmpty && re.contains k then .obj bsub
      else .obj (rud pe pu re asub bsub)
termination_by _ v => (sizeOf v, 0)
decreasing_by
  apply Prod.Lex.left
  all_goals simp

end

/-- One iteration of the `b_dict.items()` loop. -/
def rudApply (pe pu re : List String) (a : JObj) (k : String) (v : JVal) : JObj :=
  setVal a k (mergedValue pe pu re k (getVal a k) v)

theorem rudItems_nil (pe pu re : List String) (a : JObj) :
    rudItems pe pu re a [] = a := by
  rw [rudItems]

theorem rudItems_cons (pe pu re : List String) (a : JObj) (k : String)
    (v : JVal) (rest : List (String × JVal)) :
    rudItems pe pu re a ((k, v) :: rest)
      = rudItems pe pu re (rudApply pe pu re a k v) rest := by
  rw [rudItems, rudApply]

/-! ### Association-list lemmas for the merge -/

def keysOf (a : JObj) : List String := a.map Prod.fst

theorem keysOf_nil : keysOf [] = [] := rfl

theorem keysOf_cons (p : String × JVal) (l : JObj) :
    keysOf (p :: l) = p.1 :: keysOf l := rfl

theorem getVal_setVal_self (a : JObj) (k : String) (v : JVal) :
    getVal (setVal a k v) k = some v := by
  induction a with
  | nil => simp [setVal, getVal]
  | cons p l ih =>
      obtain ⟨k0, v0⟩ := p
      by_cases h : k0 = k
      · subst h; simp [setVal, getVal]
      · simp [setVal, getVal, h, ih]

theorem getVal_setVal_ne (a : JObj) (k k' : String) (v : JVal) (h : k' ≠ k) :
    getVal (setVal a k v) k' = getVal a k' := by
  have h' : k ≠ k' := Ne.symm h
  induction a with
  | nil => simp [setVal, getVal, h']
  | cons p l ih =>
      obtain ⟨k0, v0⟩ := p
      by_cases h0 : k0 = k
      · subst h0
        have h1 : k0 ≠ k' := h'
        simp [setVal, getVal, h1]
      · simp only [setVal, if_neg h0]
        by_cases h1 : k0 = k'
        · simp [getVal, h1]
        · simp [getVal, h1, ih]

theorem setVal_eq_self (a : JObj) (k : String) (v : JVal)
    (h : getVal a k = some v) : setVal a k v = a := by
  induction a with
  | nil => simp [getVal] at h
  | cons p l ih =>
      obtain ⟨k0, v0⟩ := p
      by_cases h0 : k0 = k
      · subst h0
        simp [getVal] at h
        simp [setVal, h]
      · simp [getVal, h0] at h
        simp [setVal, h0, ih h]

theorem mem_keysOf_setVal (a : JObj) (k x : String) (v : JVal)
    (h : x ∈ keysOf (setVal a k v)) : x ∈ keysOf a ∨ x = k := by
  induction a with
  | nil =>
      right
      simpa [setVal, keysOf] using h
  | cons p l ih =>
      obtain ⟨k0, v0⟩ := p
      by_cases h0 : k0 = k
      · subst h0
        simp only [setVal, if_pos rfl, keysOf_cons] at h ⊢
        exact Or.inl h
      · simp only [setVal, if_neg h0, keysOf_cons] at h ⊢
        rcases List.mem_cons.mp h with h1 | h1
        · exact Or.inl (List.mem_cons.mpr (Or.inl h1))
        · rcases ih h1 with h2 | h2
          · exact Or.inl (List.mem_cons.mpr (Or.inr h2))
          · exact Or.inr h2

theorem getVal_eq_none_iff (a : JObj) (k : String) :
    getVal a k = none ↔ k ∉ keysOf a := by
  induction a with
  | nil => simp [getVal, keysOf]
  | cons p l ih =>
      obtain ⟨k0, v0⟩ := p
      by_cases h0 : k0 = k
      · subst h0; simp [getVal, keysOf_cons]
      · have h1 : k ≠ k0 := Ne.symm h0
        simp only [getVal, if_neg h0, keysOf_cons, List.mem_cons]
        rw [ih]
        constructor
        · intro hh
          intro hc
          rcases hc with hc | hc
          · exact h1 hc
          · exact hh hc
        · intro hh hc
          exact hh (Or.inr hc)

theorem getVal_filter (a : JObj) (k : String) (w : JVal)
    (p : String × JVal → Bool)
    (h : getVal a k = some w) (hp : p (k, w) = true) :
    getVal (a.filter p) k = some w := by
  induction a with
  | nil => simp [getVal] at h
  | cons q l ih =>
      obtain ⟨k0, v0⟩ := q
      by_cases h0 : k0 = k
      · subst h0
        simp [getVal] at h
        subst h
        simp [List.filter, hp, getVal]
      · simp [getVal, h0] at h
        by_cases hq : p (k0, v0) = true
        · simp [List.filter, hq, getVal, h0, ih h]
        · simp only [List.filter, Bool.not_eq_true] at hq ⊢
          rw [hq]
          exact ih h

theorem getVal_filter_keyTrue (a : JObj) (k : String)
    (p : String × JVal → Bool) (hp : ∀ v', p (k, v') = true) :
    getVal (a.filter p) k = getVal a k := by
  induction a with
  | nil => simp [getVal]
  | cons q l ih =>
      obtain ⟨k0, v0⟩ := q
      by_cases h0 : k0 = k
      · subst h0
        simp [List.filter, hp v0, getVal]
      · by_cases hq : p (k0, v0) = true
        · simp [List.filter, hq, getVal, h0, ih]
        · simp only [List.filter, Bool.not_eq_true] at hq ⊢
          rw [hq]
          rw [ih]
          simp [getVal, h0]

theorem getVal_of_mem_nodup (a : JObj) (k : String) (v : JVal)
    (hnd : (keysOf a).Nodup) (hm : (k, v) ∈ a) : getVal a k = some v := by
  induction a with
  | nil => simp at hm
  | cons q l ih =>
      obtain ⟨k0, v0⟩ := q
      simp only [keysOf, List.map_cons, List.nodup_cons] at hnd
      rcases List.mem_cons.mp hm with h | h
      · obtain ⟨h1, h2⟩ := Prod.mk.injEq .. ▸ congrArg id h
        injection h with h1 h2
        subst h1; subst h2
        simp [getVal]
      · have hk : k0 ≠ k := by
          intro hk; subst hk
          exact hnd.1 (by simpa [keysOf] using List.mem_map_of_mem Prod.fst h)
        simp [getVal, hk]
        exact ih hnd.2 h

/-- Well-formedness of a JSON tree used as the *fresh* side of the merge:
every object in the tree has duplicate-free keys (always true of a parsed
JSON/dict tree), and no member's value is an empty object unless its key is
prune-exempt. Fresh trees produced by the database builder satisfy this
whenever the remote query returns no empty nested structures. -/
def goodVal (pe : List String) : JVal → Bool
  | .prim _ => true
  | .obj [] => true
  | .obj ((k, v) :: rest) =>
      !(decide (k ∈ keysOf rest)) && (!(isEmptyObj v) || pe.contains k) &&
        goodVal pe v && goodVal pe (.obj rest)
termination_by v => sizeOf v
decreasing_by
  all_goals simp
  all_goals omega

theorem goodVal_cons_iff (pe : List String) (k : String) (v : JVal) (rest : JObj) :
    goodVal pe (.obj ((k, v) :: rest)) = true ↔
      (k ∉ keysOf rest ∧ (!(isEmptyObj v) || pe.contains k) = true ∧
        goodVal pe v = true ∧ goodVal pe (.obj rest) = true) := by
  rw [goodVal]
  simp [and_assoc]

theorem goodVal_nodup (pe : List String) (b : JObj)
    (h : goodVal pe (.obj b) = true) : (keysOf b).Nodup := by
  induction b with
  | nil => simp [keysOf]
  | cons p rest ih =>
      obtain ⟨k, v⟩ := p
      rw [goodVal_cons_iff] at h
      rw [keysOf_cons, List.nodup_cons]
      exact ⟨h.1, ih h.2.2.2⟩

theorem goodVal_mem (pe : List String) (b : JObj) (k : String) (v : JVal)
    (h : goodVal pe (.obj b) = true) (hm : (k, v) ∈ b) :
    (!(isEmptyObj v) || pe.contains k) = true ∧ goodVal pe v = true := by
  induction b with
  | nil => simp at hm
  | cons p rest ih =>
      obtain ⟨k0, v0⟩ := p
      rw [goodVal_cons_iff] at h
      rcases List.mem_cons.mp hm with h1 | h1
      · injection h1 with e1 e2
        subst e1; subst e2
        exact ⟨h.2.1, h.2.2.1⟩
      · exact ih h.2.2.2 h1

/-! ### Behaviour of one merge-loop iteration -/

theorem purgeKeys_nil (a : JObj) : purgeKeys [] a = a := rfl

theorem rudApply_getVal_ne (pe pu re : List String) (a : JObj)
    (k k' : String) (v : JVal) (h : k' ≠ k) :
    getVal (rudApply pe pu re a k v) k' = getVal a k' := by
  rw [rudApply]
  exact getVal_setVal_ne a k k' _ h

theorem rudApply_get_formula (pe pu re : List String) (a : JObj)
    (k : String) (v : JVal) :
    getVal (rudApply pe pu re a k v) k
      = some (mergedValue pe pu re k (getVal a k) v) := by
  rw [rudApply]
  exact getVal_setVal_self a k _

theorem rudApply_get_congr (pe pu re : List String) (a a' : JObj)
    (k : String) (v : JVal) (h : getVal a k = getVal a' k) :
    getVal (rudApply pe pu re a k v) k = getVal (rudApply pe pu re a' k v) k := by
  rw [rudApply_get_formula, rudApply_get_formula, h]

/-- The value one merge-loop iteration computes: either the fresh value `v`
itself (exception key, scalar on either side, or key absent from the
existing tree), or the recursive merge of the two object values. -/
theorem mergedValue_cases (pe pu re : List String) (k : String)
    (cur : Option JVal) (v : JVal) :
    mergedValue pe pu re k cur v = v ∨
      (∃ asub bsub, v = .obj bsub ∧ cur = some (.obj asub) ∧
        (!re.isEmpty && re.contains k) = false ∧
        mergedValue pe pu re k cur v = .obj (rud pe pu re asub bsub)) := by
  rcases cur with _ | w
  · left; rw [mergedValue]
  · cases w with
    | prim s => left; rw [mergedValue]
    | obj asub =>
        cases v with
        | prim s => left; rw [mergedValue]
        | obj bsub =>
            rw [mergedValue]
            by_cases h1 : (!re.isEmpty && re.contains k) = true
            · left; rw [if_pos h1]
            · right
              exact ⟨asub, bsub, rfl, rfl, by simpa using h1,
                by rw [if_neg h1]⟩

theorem rudItems_get_notmem (pe pu re : List String) (items : List (String × JVal))
    (k : String) (h : k ∉ keysOf items) (a0 : JObj) :
    getVal (rudItems pe pu re a0 items) k = getVal a0 k := by
  induction items generalizing a0 with
  | nil => rw [rudItems]
  | cons p rest ih =>
      obtain ⟨k1, v1⟩ := p
      rw [keysOf_cons, List.mem_cons] at h
      push_neg at h
      rw [rudItems_cons, ih h.2]
      exact rudApply_getVal_ne pe pu re a0 k1 k v1 h.1

theorem rudItems_get (pe pu re : List String) (items : List (String × JVal))
    (hnd : (keysOf items).Nodup) (k : String) (v : JVal)
    (hm : (k, v) ∈ items) (a0 : JObj) :
    getVal (rudItems pe pu re a0 items) k
      = getVal (rudApply pe pu re a0 k v) k := by
  induction items generalizing a0 with
  | nil => simp at hm
  | cons p rest ih =>
      obtain ⟨k0, v0⟩ := p
      rw [keysOf_cons, List.nodup_cons] at hnd
      rcases List.mem_cons.mp hm with h1 | h1
      · injection h1 with e1 e2
        subst e1; subst e2
        rw [rudItems_cons]
        exact rudItems_get_notmem pe pu re rest k hnd.1 _
      · have hk0 : k ≠ k0 := by
          intro hh
          subst hh
          exact hnd.1 (List.mem_map.mpr ⟨(k, v), h1, rfl⟩)
        rw [rudItems_cons, ih hnd.2 h1]
        exact rudApply_get_congr pe pu re _ _ k v
          (rudApply_getVal_ne pe pu re a0 k0 k v0 hk0)

theorem keysOf_rudItems_subset (pe pu re : List String)
    (items : List (String × JVal)) (a0 : JObj) (x : String)
    (h : x ∈ keysOf (rudItems pe pu re a0 items)) :
    x ∈ keysOf a0 ∨ x ∈ keysOf items := by
  induction items generalizing a0 with
  | nil => rw [rudItems_nil] at h; exact Or.inl h
  | cons p rest ih =>
      obtain ⟨k, v⟩ := p
      rw [rudItems_cons] at h
      rcases ih _ h with h1 | h1
      · rw [rudApply] at h1
        rcases mem_keysOf_setVal _ _ _ _ h1 with h2 | h2
        · exact Or.inl h2
        · subst h2
          exact Or.inr (List.mem_cons.mpr (Or.inl rfl))
      · exact Or.inr (List.mem_cons.mpr (Or.inr h1))

theorem rudItems_id (pe pu re : List String) (items : List (String × JVal))
    (a : JObj) (h : ∀ p ∈ items, rudApply pe pu re a p.1 p.2 = a) :
    rudItems pe pu re a items = a := by
  induction items with
  | nil => rw [rudItems_nil]
  | cons p rest ih =>
      obtain ⟨k, v⟩ := p
      rw [rudItems_cons, h (k, v) (List.mem_cons.mpr (Or.inl rfl))]
      exact ih (fun q hq => h q (List.mem_cons.mpr (Or.inr hq)))

theorem sizeOf_lt_of_mem_jobj (b : JObj) (k : String) (v : JVal)
    (h : (k, v) ∈ b) : sizeOf v < sizeOf b := by
  induction b with
  | nil => simp at h
  | cons p rest ih =>
      rcases List.mem_cons.mp h with h1 | h1
      · subst h1; simp; omega
      · have := ih h1
        simp
        omega

theorem getVal_mem_ne_none (b : JObj) (k : String) (v : JVal)
    (h : (k, v) ∈ b) : getVal b k ≠ none := by
  intro hc
  exact (getVal_eq_none_iff b k).mp hc (List.mem_map.mpr ⟨(k, v), h, rfl⟩)

theorem isEmptyObj_obj_ne (l : JObj) (h : l ≠ []) :
    isEmptyObj (.obj l) = false := by
  cases l with
  | nil => exact absurd rfl h
  | cons p rest => rfl

/-- The heart of merge idempotence: by strong induction on the size of the
fresh tree `b` (well-formed in the sense of `goodVal`, purge list empty),
(1) the merge binds every key of `b` either to the fresh value or to the
recursive merge of the two object values, (2) merging `b` into itself is the
identity, and (3) merging the same fresh tree twice equals merging it once. -/
theorem rud_master (pe re : List String) : ∀ n, ∀ b : JObj, sizeOf b ≤ n →
    goodVal pe (.obj b) = true →
    (∀ k v, (k, v) ∈ b → ∀ a,
        getVal (rud pe [] re a b) k = some v ∨
          (∃ asub bsub, v = .obj bsub ∧ getVal a k = some (.obj asub) ∧
            (!re.isEmpty && re.contains k) = false ∧
            getVal (rud pe [] re a b) k = some (.obj (rud pe [] re asub bsub))))
      ∧ rud pe [] re b b = b
      ∧ (∀ a, rud pe [] re (rud pe [] re a b) b = rud pe [] re a b) := by
  intro n
  induction n with
  | zero =>
      intro b hb
      exfalso
      cases b <;> simp at hb
  | succ n ih =>
      intro b hb hgood
      have hnodup := goodVal_nodup pe b hgood
      have hszb : ∀ (k : String) (bsub : JObj), (k, JVal.obj bsub) ∈ b →
          sizeOf bsub ≤ n := by
        intro k bsub hm
        have h1 := sizeOf_lt_of_mem_jobj b k _ hm
        have h2 : sizeOf (JVal.obj bsub) = 1 + sizeOf bsub := by simp
        omega
      have hne : ∀ bsub : JObj, sizeOf bsub ≤ n → goodVal pe (.obj bsub) = true →
          bsub ≠ [] → ∀ x, rud pe [] re x bsub ≠ [] := by
        intro bsub hsz hg hnil x heq
        match bsub, hnil with
        | (k1, w1) :: rest', _ =>
          rcases (ih _ hsz hg).1 k1 w1 (List.mem_cons.mpr (Or.inl rfl)) x with
            h | ⟨_, _, _, _, _, h⟩ <;>
          · rw [heq] at h
            simp [getVal] at h
      have hchar : ∀ k v, (k, v) ∈ b → ∀ a,
          getVal (rud pe [] re a b) k = some v ∨
            (∃ asub bsub, v = .obj bsub ∧ getVal a k = some (.obj asub) ∧
              (!re.isEmpty && re.contains k) = false ∧
              getVal (rud pe [] re a b) k
                = some (.obj (rud pe [] re asub bsub))) := by
        intro k v hm a
        have hbk : getVal b k ≠ none := getVal_mem_ne_none b k v hm
        have hbknone : (getVal b k).isNone = false := by
          rcases hgb : getVal b k with _ | w
          · exact absurd hgb hbk
          · rfl
        have hdel : getVal (delMissingExceptions re a b) k = getVal a k := by
          simp only [delMissingExceptions]
          apply getVal_filter_keyTrue
          intro v'
          simp [hbknone]
        have hfold := rudItems_get pe [] re b hnodup k v hm
          (delMissingExceptions re a b)
        rw [rudApply_get_formula, hdel] at hfold
        have hgood_mem := goodVal_mem pe b k v hgood hm
        rcases mergedValue_cases pe [] re k (getVal a k) v with
          hmv | ⟨asub, bsub, hv, hcur, hrecond, hmv⟩
        · left
          rw [rud, purgeKeys_nil]
          simp only [pruneEmpty]
          apply getVal_filter _ k v _ (by rw [hfold, hmv])
          have h1 := hgood_mem.1
          cases he : isEmptyObj v <;> cases hc : pe.contains k <;> simp_all
        · subst hv
          right
          refine ⟨asub, bsub, rfl, hcur, hrecond, ?_⟩
          rw [rud, purgeKeys_nil]
          simp only [pruneEmpty]
          apply getVal_filter _ k _ _ (by rw [hfold, hmv])
          by_cases hbs : bsub = []
          · have hc : pe.contains k = true := by
              rw [hbs] at hgood_mem
              simpa [isEmptyObj] using hgood_mem.1
            have hc2 : k ∈ pe := by simpa using hc
            simp [hc2]
          · have hsz : sizeOf bsub ≤ n := hszb k bsub hm
            have hg2 : goodVal pe (.obj bsub) = true := hgood_mem.2
            have hnonnil := hne bsub hsz hg2 hbs asub
            simp [isEmptyObj_obj_ne _ hnonnil]
      have hself : rud pe [] re b b = b := by
        rw [rud, purgeKeys_nil]
        have hdel : delMissingExceptions re b b = b := by
          simp only [delMissingExceptions]
          rw [List.filter_eq_self]
          intro p hp
          obtain ⟨k1, v1⟩ := p
          have hnn : (getVal b k1).isNone = false := by
            rcases hgb : getVal b k1 with _ | w
            · exact absurd hgb (getVal_mem_ne_none b k1 v1 hp)
            · rfl
          simp [hnn]
        rw [hdel]
        have hitems : rudItems pe [] re b b = b := by
          apply rudItems_id
          intro p hp
          obtain ⟨k, v⟩ := p
          have hget : getVal b k = some v := getVal_of_mem_nodup b k v hnodup hp
          rw [rudApply, hget]
          cases v with
          | prim s =>
              rw [mergedValue]
              exact setVal_eq_self b k _ hget
          | obj bsub =>
              rw [mergedValue]
              by_cases h1 : (!re.isEmpty && re.contains k) = true
              · rw [if_pos h1]
                exact setVal_eq_self b k _ hget
              · rw [if_neg h1]
                have hsz : sizeOf bsub ≤ n := hszb k bsub hp
                have hg2 : goodVal pe (.obj bsub) = true :=
                  (goodVal_mem pe b k _ hgood hp).2
                rw [(ih bsub hsz hg2).2.1]
                exact setVal_eq_self b k _ hget
        rw [hitems]
        simp only [pruneEmpty]
        rw [List.filter_eq_self]
        intro p hp
        obtain ⟨k1, v1⟩ := p
        have h1 := (goodVal_mem pe b k1 v1 hgood hp).1
        cases he : isEmptyObj v1 <;> cases hc : pe.contains k1 <;> simp_all
      refine ⟨hchar, hself, ?_⟩
      intro a
      set r := rud pe [] re a b with hr
      have hrdef : r = pruneEmpty pe
          (rudItems pe [] re (delMissingExceptions re a b) b) := by
        rw [hr, rud, purgeKeys_nil]
      rw [rud, purgeKeys_nil]
      have hrmem : ∀ p ∈ r,
          (!(!re.isEmpty && re.contains p.1 && (getVal b p.1).isNone)) = true := by
        intro p hp
        by_cases hcond : (!re.isEmpty && re.contains p.1) = true
        · have hp2 : p.1 ∈ keysOf (rudItems pe [] re
              (delMissingExceptions re a b) b) := by
            rw [hrdef] at hp
            simp only [pruneEmpty] at hp
            exact List.mem_map.mpr ⟨p, List.mem_of_mem_filter hp, rfl⟩
          have hsplit := keysOf_rudItems_subset pe [] re b _ p.1 hp2
          have hbnn : getVal b p.1 ≠ none := by
            rcases hsplit with h2 | h2
            · obtain ⟨q, hq, hq1⟩ := List.mem_map.mp h2
              have hqf := List.of_mem_filter
                (show q ∈ List.filter _ a by
                  simpa only [delMissingExceptions] using hq)
              rw [hq1] at hqf
              intro hnone
              rw [hcond, hnone] at hqf
              simp at hqf
            · intro hnone
              exact (getVal_eq_none_iff b p.1).mp hnone h2
          rcases hgb : getVal b p.1 with _ | w
          · exact absurd hgb hbnn
          · simp [hgb]
        · have hx : (!re.isEmpty && re.contains p.1) = false := by
            revert hcond
            cases (!re.isEmpty && re.contains p.1) <;> simp
          rw [hx]
          simp
      have hdel : delMissingExceptions re r b = r := by
        simp only [delMissingExceptions]
        exact List.filter_eq_self.mpr hrmem
      rw [hdel]
      have hitems : rudItems pe [] re r b = r := by
        apply rudItems_id
        intro p hp
        obtain ⟨k, v⟩ := p
        rcases hchar k v hp a with hA | ⟨asub, bsub, hv, hcur, hrecond, hB⟩
        · rw [rudApply]
          rw [show getVal r k = some v from hA]
          cases v with
          | prim s =>
              rw [mergedValue]
              exact setVal_eq_self r k _ hA
          | obj bsub =>
              rw [mergedValue]
              by_cases h1 : (!re.isEmpty && re.contains k) = true
              · rw [if_pos h1]
                exact setVal_eq_self r k _ hA
              · rw [if_neg h1]
                have hsz : sizeOf bsub ≤ n := hszb k bsub hp
                have hg2 : goodVal pe (.obj bsub) = true :=
                  (goodVal_mem pe b k _ hgood hp).2
                rw [(ih bsub hsz hg2).2.1]
                exact setVal_eq_self r k _ hA
        · subst hv
          rw [rudApply]
          rw [show getVal r k = some (.obj (rud pe [] re asub bsub)) from hB]
          rw [mergedValue, if_neg (by rw [hrecond]; simp)]
          have hsz : sizeOf bsub ≤ n := hszb k bsub hp
          have hg2 : goodVal pe (.obj bsub) = true :=
            (goodVal_mem pe b k _ hgood hp).2
          rw [(ih bsub hsz hg2).2.2 asub]
          exact setVal_eq_self r k _ hB
      rw [hitems]
      simp only [pruneEmpty]
      rw [List.filter_eq_self]
      intro p hp
      rw [hrdef] at hp
      simp only [pruneEmpty] at hp
      simpa using List.of_mem_filter hp

/-- C7 amended: merging a fresh database into an existing database twice
with the same fresh tree equals merging it once, provided the fresh tree is
well-formed (`goodVal`: duplicate-free keys throughout, and no empty nested
object outside prune-exempt keys — the property violated by the
counterexample) and the purge list is empty (as at the builder call site,
metadata.py lines 1850-1855, which passes no `purge_keys`). Exception-managed
keys are overwritten from the fresh side on every merge even when unchanged;
for well-formed fresh trees that re-overwrite is invisible, making the merge
idempotent in the existing tree. -/
theorem C7_merge_idempotent_amended (pe re : List String) (a b : JObj)
    (hgood : goodVal pe (.obj b) = true) :
    rud pe [] re (rud pe [] re a b) b = rud pe [] re a b :=
  (rud_master pe re (sizeOf b) b le_rfl hgood).2.2 a

/-- Witness for the amended C7 at a concrete input: the C2 scenario's trees
(whose fresh side is well-formed). -/
theorem C7_merge_idempotent_amended_witness :
    goodVal []
        (JVal.obj [("123", JVal.obj [("steamName", JVal.prim "Foo")])]) = true ∧
      rud [] [] ["blacklist"]
          (rud [] [] ["blacklist"]
            [("123", JVal.obj [("blacklist",
                JVal.obj [("comment", JVal.prim "bad")])])]
            [("123", JVal.obj [("steamName", JVal.prim "Foo")])])
          [("123", JVal.obj [("steamName", JVal.prim "Foo")])]
        = rud [] [] ["blacklist"]
            [("123", JVal.obj [("blacklist",
                JVal.obj [("comment", JVal.prim "bad")])])]
            [("123", JVal.obj [("steamName", JVal.prim "Foo")])] := by
  constructor
  · simp [goodVal, keysOf, isEmptyObj]
  · exact C7_merge_idempotent_amended [] ["blacklist"]
      [("123", JVal.obj [("blacklist", JVal.obj [("comment", JVal.prim "bad")])])]
      [("123", JVal.obj [("steamName", JVal.prim "Foo")])]
      (by simp [goodVal, keysOf, isEmptyObj])

/-- C2 counterexample: merging the existing database
`{"123": {"blacklist": {"comment": "bad"}}}` with the fresh database
`{"123": {"steamName": "Foo"}}` with `blacklist` as a recurse exception does
NOT produce `{"123": {"blacklist": {"comment": "bad"}, "steamName": "Foo"}}`:
metadata.py lines 2038-2041 delete every recurse-exception key of the
existing tree that is absent from the fresh tree, so the curated `blacklist`
annotation is removed. -/
theorem C2_counterexample :
    rud [] [] ["blacklist"]
      [("123", JVal.obj [("blacklist", JVal.obj [("comment", JVal.prim "bad")])])]
      [("123", JVal.obj [("steamName", JVal.prim "Foo")])]
    ≠ [("123", JVal.obj [("blacklist", JVal.obj [("comment", JVal.prim "bad")]),
                         ("steamName", JVal.prim "Foo")])] := by
  have h : rud [] [] ["blacklist"]
      [("123", JVal.obj [("blacklist", JVal.obj [("comment", JVal.prim "bad")])])]
      [("123", JVal.obj [("steamName", JVal.prim "Foo")])]
      = [("123", JVal.obj [("steamName", JVal.prim "Foo")])] := by
    simp [rud, rudItems, mergedValue, delMissingExceptions, getVal, setVal,
      pruneEmpty, purgeKeys, eraseKey, isEmptyObj]
  rw [h]
  simp

/-- C2 amended: merging existing `{"123": {"blacklist": {"comment": "bad"}}}`
with fresh `{"123": {"steamName": "Foo"}}` with `blacklist` exception-managed
yields `{"123": {"steamName": "Foo"}}` (for any prune-exception list and the
builder's empty purge list): the fresh `steamName` is taken, and the curated
`blacklist` annotation is deleted because exception-managed keys absent from
the fresh tree are removed rather than preserved. -/
theorem C2_amended (pe : List String) :
    rud pe [] ["blacklist"]
      [("123", JVal.obj [("blacklist", JVal.obj [("comment", JVal.prim "bad")])])]
      [("123", JVal.obj [("steamName", JVal.prim "Foo")])]
    = [("123", JVal.obj [("steamName", JVal.prim "Foo")])] := by
  simp [rud, rudItems, mergedValue, delMissingExceptions, getVal, setVal,
    pruneEmpty, purgeKeys, eraseKey, isEmptyObj]

/-- C7 counterexample: with no exception lists at all, merging the fresh
database `{"x": {"y": {}}}` into the empty existing database once yields
`{"x": {"y": {}}}` (the copied subtree is not pruned internally), but
merging a second time recurses into the copied subtree, prunes the empty
`"y"` object, and then prunes the now-empty `"x"`, yielding `{}` — so
merging twice is not the same as merging once. -/
theorem C7_counterexample :
    rud [] [] []
        (rud [] [] [] [] [("x", JVal.obj [("y", JVal.obj [])])])
        [("x", JVal.obj [("y", JVal.obj [])])]
      ≠ rud [] [] [] [] [("x", JVal.obj [("y", JVal.obj [])])] := by
  have h1 : rud [] [] [] [] [("x", JVal.obj [("y", JVal.obj [])])]
      = [("x", JVal.obj [("y", JVal.obj [])])] := by
    simp [rud, rudItems, mergedValue, delMissingExceptions, getVal, setVal,
      pruneEmpty, purgeKeys, eraseKey, isEmptyObj]
  have h2 : rud [] [] [] [("x", JVal.obj [("y", JVal.obj [])])]
      [("x", JVal.obj [("y", JVal.obj [])])] = [] := by
    simp [rud, rudItems, mergedValue, delMissingExceptions, getVal, setVal,
      pruneEmpty, purgeKeys, eraseKey, isEmptyObj]
  rw [h1, h2]
  simp

/-! ## The metadata store and `MetadataManager.compile_metadata`
(metadata.py lines 552-914)

A mod record is a Python dict carrying raw descriptor fields (written by the
parser, read-only during compilation) and derived relation fields (created
by `setdefault` and only ever inserted into during compilation). The raw
fields are grouped in `ModRaw`; `li`-wrapped XML lists are embedded as plain
string lists (the descriptor parser is an external collaborator per the
spec), and each entry of `moddependencies`' list models the `packageId`
value of one dependency dict. The derived sets are Python `set`s, whose only
observable in this code is membership; they are embedded as duplicate-free
lists with idempotent insertion (`insertSet`). The load-order sets live
under string keys of the record
(`"loadTheseBefore"`, `"loadTheseAfter"`, and — as passed by
`process_external_rules` — `"loadBefore"`/`"loadAfter"`), embedded as a
total function from key strings to `Finset`s that is `∅` wherever
`setdefault` has not yet been called. -/

structure ModRaw where
  packageid : String
  data_source : String
  path : String
  publishedfileid : Option String
  moddependencies : List String
  moddependenciesbyversion : List (String × List String)
  incompatiblewith : List String
  incompatiblewithbyversion : List (String × List String)
  loadafter : List String
  forceloadafter : List String
  loadafterbyversion : List (String × List String)
  loadbefore : List String
  forceloadbefore : List String
  loadbeforebyversion : List (String × List String)

/-- `str.lower()` for the ASCII identifiers the code normalizes (embedded
structurally over the character list so that it is kernel-computable). -/
def lowerStr (s : String) : String := ⟨s.data.map Char.toLower⟩

/-- `set.add`: membership-idempotent insertion. -/
def insertSet {α : Type} [DecidableEq α] (l : List α) (x : α) : List α :=
  if x ∈ l then l else l ++ [x]

structure Mod where
  raw : ModRaw
  dependencies : List String
  incompatibilities : List String
  order : String → List (String × Bool)

/-- `internal_local_metadata`: uuid → mod record, in insertion order. -/
abbrev Store := List (String × Mod)

def storeGet (s : Store) (u : String) : Option Mod :=
  (s.find? (fun p => p.1 == u)).map Prod.snd

/-- In-place mutation of the record object stored under `u` (Python mutates
the dict through a reference; every alias sees the update). -/
def storeModify (s : Store) (u : String) (f : Mod → Mod) : Store :=
  s.map (fun p => if p.1 = u then (p.1, f p.2) else p)

/-- Modelled from the spec: `self.packageid_to_uuids`, the derived
`packageId → set<id>` index. The code that populates it (the parser-result
handler) is not under src/; per spec §3 the index is rebuilt after every
batch refresh so that it is consistent with the store, i.e. it maps a
packageid to exactly the uuids of the records carrying it, and `compile_-
metadata` runs against a consistent snapshot. Record packageids never change
during compilation, so the index stays consistent throughout. -/
def pidToUuids (s : Store) (pid : String) : List String :=
  (s.filter (fun p => p.2.raw.packageid == pid)).map Prod.fst

/-- Point-update of a keyed family of sets. -/
def updateKey (f : String → List (String × Bool)) (key : String)
    (v : List (String × Bool)) : String → List (String × Bool) :=
  fun k => if k = key then v else f k

/-- `mod_data.setdefault(key, set()); mod_data[key].add(t)` on one of the
keyed load-order sets. -/
def Mod.insertOrder (m : Mod) (key : String) (t : String × Bool) : Mod :=
  { m with order := updateKey m.order key (insertSet (m.order key) t) }

/-- `add_dependency_to_mod` (metadata.py lines 1250-1298) as invoked from
`process_dependencies` (line 572), its only compile-time caller: the caller
passes the dependency's `packageId` *string*, but the helper only acts on a
dict (`isinstance(dependency_or_dependency_ids, dict)`) or a list argument;
a bare string matches neither branch, so apart from `setdefault`-creating
the (empty) `dependencies` set the call changes nothing. -/
def addDependencyToMod (s : Store) (_u : String) (_packageId : String) : Store :=
  s

/-- `add_dependency_to_mod_from_steamdb` (metadata.py lines 1301-1313):
an unconditional insertion — the dependency need not be installed. -/
def addDependencyToModFromSteamDb (s : Store) (u : String) (depId : String) :
    Store :=
  storeModify s u
    (fun m => { m with dependencies := insertSet m.dependencies depId })

/-- `add_incompatibility_to_mod` (metadata.py lines 1325-1364) as invoked
from `process_incompatibilities` (line 609), which passes a single string:
the lowercased id is inserted only when it occurs among the packageids of
the records currently in the store (`all_package_ids`). -/
def addIncompatibilityToMod (s : Store) (u : String) (incRaw : String) :
    Store :=
  match storeGet s u with
  | none => s
  | some _ =>
      let dep := lowerStr incRaw
      if (s.map (fun p => p.2.raw.packageid)).contains dep then
        storeModify s u
          (fun m => { m with incompatibilities := insertSet m.incompatibilities dep })
      else s

/-- `add_load_rule_to_mod` (metadata.py lines 1367-1426) as invoked from
`process_load_order`, `process_dependencies` and `process_external_rules`,
which always pass a single string: when the lowercased target occurs in the
packageid index, `(dep, True)` is added to the declaring record's
`explicit_key` set and `(mod_data["packageid"], False)` to the
`indirect_key` set of every record sharing the target packageid; an
uninstalled target adds nothing. -/
def addLoadRuleToMod (index : String → List String) (s : Store) (u : String)
    (depRaw : String) (explicitKey indirectKey : String) : Store :=
  match storeGet s u with
  | none => s
  | some m =>
      let dep := lowerStr depRaw
      if index dep = [] then s
      else
        let s1 := storeModify s u (fun md => md.insertOrder explicitKey (dep, true))
        (index dep).foldl
          (fun acc du =>
            storeModify acc du
              (fun dm => dm.insertOrder indirectKey (m.raw.packageid, false)))
          s1

/-- `process_dependencies` (metadata.py lines 561-593): records a dependency
(a no-op in this code base, see `addDependencyToMod`) and, when the
`dependency_for_sorting` setting is enabled, also a load-order rule. Empty
packageIds (`if package_id:`) are skipped. -/
def processDependencies (index : String → List String) (dfs : Bool)
    (s : Store) (u : String) (deps : List String) : Store :=
  deps.foldl
    (fun acc p =>
      if p ≠ "" then
        let acc1 := addDependencyToMod acc u p
        if dfs then
          addLoadRuleToMod index acc1 u p "loadTheseBefore" "loadTheseAfter"
        else acc1
      else acc)
    s

/-- `process_incompatibilities` (metadata.py lines 595-617). -/
def processIncompatibilities (s : Store) (u : String) (incs : List String) :
    Store :=
  incs.foldl (fun acc inc => addIncompatibilityToMod acc u inc) s

/-- `process_load_order` (metadata.py lines 619-648). -/
def processLoadOrder (index : String → List String) (s : Store) (u : String)
    (lst : List String) (ruleType oppositeRuleType : String) : Store :=
  lst.foldl
    (fun acc x => addLoadRuleToMod index acc u x ruleType oppositeRuleType) s

/-- Splitting on a literal separator character, structurally over the
character list (agrees with Python `str.split` for a one-character
separator: `"".split(".") == [""]`, `"a..b".split(".") == ["a","","b"]`). -/
def splitSepChar (sep : Char) : List Char → List (List Char)
  | [] => [[]]
  | c :: rest =>
      if c = sep then [] :: splitSepChar sep rest
      else
        match splitSepChar sep rest with
        | h :: t => (c :: h) :: t
        | [] => [[c]]

/-- `self.game_version.split(".")` (metadata.py line 665). -/
def splitDot (s : String) : List String :=
  (splitSepChar '.' s.data).map String.mk

/-- The version-scoped dispatch (metadata.py lines 665-668):
`match(version_regex, version)` with `version_regex = rf"v{major}\.{minor}"`.
`re.match` anchors at the beginning only, and for numeric game versions the
major/minor components contain no regex metacharacters, so the regex matches
exactly when the literal string `v{major}.{minor}` occurs at the start of the
version key — a prefix match that is not anchored at the end. -/
def versionMatchKey (ma mi key : String) : Bool :=
  ("v" ++ ma ++ "." ++ mi).data.isPrefixOf key.data

/-- The version-guarded tail of one iteration of `compile_metadata`'s
per-uuid loop (metadata.py lines 663-762), run after the unconditional
`moddependencies` block: version-scoped dependencies, unconditional and
version-scoped incompatibilities, then the six load-order blocks. -/
def compileOneVersioned (index : String → List String) (dfs : Bool)
    (ma mi : String) (s1 : Store) (u : String) (m : Mod) : Store :=
  let s2 := m.raw.moddependenciesbyversion.foldl
    (fun acc pv =>
      if versionMatchKey ma mi pv.1 then
        processDependencies index dfs acc u pv.2
      else acc) s1
  let s3 := processIncompatibilities s2 u m.raw.incompatiblewith
  let s4 := m.raw.incompatiblewithbyversion.foldl
    (fun acc pv =>
      if versionMatchKey ma mi pv.1 then
        processIncompatibilities acc u pv.2
      else acc) s3
  let s5 := processLoadOrder index s4 u m.raw.loadafter
    "loadTheseBefore" "loadTheseAfter"
  let s6 := processLoadOrder index s5 u m.raw.forceloadafter
    "loadTheseBefore" "loadTheseAfter"
  let s7 := m.raw.loadafterbyversion.foldl
    (fun acc pv =>
      if versionMatchKey ma mi pv.1 then
        processLoadOrder index acc u pv.2
          "loadTheseBefore" "loadTheseAfter"
      else acc) s6
  let s8 := processLoadOrder index s7 u m.raw.loadbefore
    "loadTheseAfter" "loadTheseBefore"
  let s9 := processLoadOrder index s8 u m.raw.forceloadbefore
    "loadTheseAfter" "loadTheseBefore"
  m.raw.loadbeforebyversion.foldl
    (fun acc pv =>
      if versionMatchKey ma mi pv.1 then
        processLoadOrder index acc u pv.2
          "loadTheseAfter" "loadTheseBefore"
      else acc) s9

/-- The version-scoped dependency blocks of one loop iteration
(a named stage of `compileOneVersioned`, for stagewise reasoning). -/
def verDepFold (index : String → List String) (dfs : Bool) (ma mi u : String)
    (lst : List (String × List String)) (s0 : Store) : Store :=
  lst.foldl
    (fun acc pv =>
      if versionMatchKey ma mi pv.1 then
        processDependencies index dfs acc u pv.2
      else acc) s0

/-- The version-scoped incompatibility blocks of one loop iteration. -/
def verIncFold (ma mi u : String) (lst : List (String × List String))
    (s0 : Store) : Store :=
  lst.foldl
    (fun acc pv =>
      if versionMatchKey ma mi pv.1 then
        processIncompatibilities acc u pv.2
      else acc) s0

/-- The version-scoped load-order blocks of one loop iteration. -/
def verLOFold (index : String → List String) (ma mi u rt ort : String)
    (lst : List (String × List String)) (s0 : Store) : Store :=
  lst.foldl
    (fun acc pv =>
      if versionMatchKey ma mi pv.1 then
        processLoadOrder index acc u pv.2 rt ort
      else acc) s0

/-- One iteration of `compile_metadata`'s per-uuid loop (metadata.py lines
650-762). A missing record logs a warning and continues (`.ok`). The game
version is unpacked inside the loop (line 665:
`major, minor = self.game_version.split(".")[:2]`); a version with fewer
than two dot-separated components raises `ValueError` — rendered as
`.error` — after the unconditional `moddependencies` block has already run. -/
def compileOne (index : String → List String) (dfs : Bool) (gv : String)
    (s : Store) (u : String) : Except String Store :=
  match storeGet s u with
  | none => .ok s
  | some m =>
      let s1 := processDependencies index dfs s u m.raw.moddependencies
      match splitDot gv with
      | ma :: mi :: _ => .ok (compileOneVersioned index dfs ma mi s1 u m)
      | _ => .error "ValueError: not enough values to unpack (expected 2)"

/-- The `for uuid in uuids` loop of `compile_metadata`; an uncaught
`ValueError` aborts the whole compilation. -/
def compileList (index : String → List String) (dfs : Bool) (gv : String) :
    Store → List String → Except String Store
  | s, [] => .ok s
  | s, u :: rest => do
      let s' ← compileOne index dfs gv s u
      compileList index dfs gv s' rest

/-- One record of the configured SteamDB
(`publishedfileid → {packageId, name, dependencies}`). -/
structure SteamEntry where
  packageId : Option String
  dependencies : List String

/-- The SteamDB phase of `compile_metadata` (metadata.py lines 767-817):
build `steam_id_to_package_id` from entries carrying a packageId, collect
per-installed-mod dependency PublishedFileIds for records whose
`publishedfileid` matches, then add each resolvable dependency as a plain
one-directional dependency edge. -/
def steamPhase (index : String → List String) (s : Store)
    (db : List (String × SteamEntry)) : Store :=
  let sidToPid : List (String × String) := db.foldl
    (fun acc pv =>
      match pv.2.packageId with
      | some p => if p ≠ "" then acc ++ [(pv.1, lowerStr p)] else acc
      | none => acc) []
  let tracking : List (String × List String) := db.foldl
    (fun acc pv =>
      match pv.2.packageId with
      | some p =>
          if p ≠ "" then
            (index (lowerStr p)).foldl
              (fun acc2 du =>
                match storeGet s du with
                | some m =>
                    if m.raw.publishedfileid = some pv.1 ∧
                        pv.2.dependencies ≠ [] then
                      acc2 ++ [(du, pv.2.dependencies)]
                    else acc2
                | none => acc2) acc
          else acc
      | none => acc) []
  tracking.foldl
    (fun acc uv =>
      uv.2.foldl
        (fun acc2 d =>
          match sidToPid.find? (fun q => q.1 == d) with
          | some q => addDependencyToModFromSteamDb acc2 uv.1 q.2
          | none => acc2) acc) s

/-- One entry of an external rule file
(`packageId → {loadBefore, loadAfter, loadTop, loadBottom}`). -/
structure RuleEntry where
  loadBefore : List String
  loadAfter : List String
  loadTop : List String
  loadBottom : List String

/-- `rule_data.get(rule_type)` for the two rule types the code passes. -/
def ruleList (rd : RuleEntry) (ruleType : String) : List String :=
  if ruleType = "loadBefore" then rd.loadBefore
  else if ruleType = "loadAfter" then rd.loadAfter
  else []

/-- `process_external_rules` (metadata.py lines 821-888): for every rule-set
packageid with installed records, apply the named rule list, then the
`loadBottom` list, then the `loadTop` list, each through
`add_load_rule_to_mod` for every record sharing the packageid. Note that the
callers pass `"loadBefore"`/`"loadAfter"` as `rule_type`, so these tuples
land under the record keys `"loadBefore"`/`"loadAfter"` — not under
`"loadTheseBefore"`/`"loadTheseAfter"`. -/
def processExternalRules (index : String → List String) (s : Store)
    (rules : List (String × RuleEntry)) (ruleType oppositeRuleType : String) :
    Store :=
  rules.foldl
    (fun acc pv =>
      let pidL := lowerStr pv.1
      if index pidL = [] then acc
      else
        let acc1 := (ruleList pv.2 ruleType).foldl
          (fun a2 x =>
            (index pidL).foldl
              (fun a3 du => addLoadRuleToMod index a3 du x ruleType oppositeRuleType)
              a2) acc
        let acc2 := pv.2.loadBottom.foldl
          (fun a2 x =>
            (index pidL).foldl
              (fun a3 du => addLoadRuleToMod index a3 du x ruleType oppositeRuleType)
              a2) acc1
        pv.2.loadTop.foldl
          (fun a2 x =>
            (index pidL).foldl
              (fun a3 du => addLoadRuleToMod index a3 du x ruleType oppositeRuleType)
              a2) acc2)
    s

/-- The phases of `compile_metadata` that follow the per-uuid descriptor
loop (metadata.py lines 767-888): the SteamDB phase, then the
community-rules phase, then the user-rules phase. `None` or empty external
sources are skipped (`if self.external_steam_metadata:` etc.). -/
def postPhases (index : String → List String) (s1 : Store)
    (steamDb : Option (List (String × SteamEntry)))
    (communityRules userRules : Option (List (String × RuleEntry))) : Store :=
  let s2 := match steamDb with
    | some db => if db.isEmpty then s1 else steamPhase index s1 db
    | none => s1
  let s3 := match communityRules with
    | some r =>
        if r.isEmpty then s2
        else processExternalRules index
          (processExternalRules index s2 r "loadBefore" "loadAfter")
          r "loadAfter" "loadBefore"
    | none => s2
  match userRules with
  | some r =>
      if r.isEmpty then s3
      else processExternalRules index
        (processExternalRules index s3 r "loadBefore" "loadAfter")
        r "loadAfter" "loadBefore"
  | none => s3

/-- `MetadataManager.compile_metadata` (metadata.py lines 552-914): an empty
`uuids` argument means "all records"; then the per-uuid descriptor loop,
followed by the external phases of `postPhases`. -/
def compileMetadata (s : Store) (uuids0 : List String) (gv : String)
    (dfs : Bool) (steamDb : Option (List (String × SteamEntry)))
    (communityRules userRules : Option (List (String × RuleEntry))) :
    Except String Store :=
  let uuids := if uuids0.isEmpty then s.map Prod.fst else uuids0
  let index := pidToUuids s
  do
    let s1 ← compileList index dfs gv s uuids
    .ok (postPhases index s1 steamDb communityRules userRules)

/-! ### Monotonicity and boundedness of the compilation pass

Every mutation `compile_metadata` performs is an insertion into a derived
set of one record; raw fields and the store's shape never change. `Grows P`
captures this: entries correspond positionally with identical uuid and raw
fields, derived sets only grow, and every new incompatibility and every new
ordering tuple names a packageid in `P` (instantiated with the packageids of
the store at the start of the pass). -/

def storePids (s : Store) : List String :=
  s.map (fun p => p.2.raw.packageid)

def EntryRel (P : List String) (a b : String × Mod) : Prop :=
  a.1 = b.1 ∧ a.2.raw = b.2.raw ∧
    a.2.dependencies ⊆ b.2.dependencies ∧
    a.2.incompatibilities ⊆ b.2.incompatibilities ∧
    (∀ x ∈ b.2.incompatibilities, x ∈ a.2.incompatibilities ∨ x ∈ P) ∧
    (∀ key, a.2.order key ⊆ b.2.order key) ∧
    (∀ key t, t ∈ b.2.order key → t ∈ a.2.order key ∨ t.1 ∈ P)

def Grows (P : List String) (s s' : Store) : Prop :=
  List.Forall₂ (EntryRel P) s s'

theorem entryRel_refl (P : List String) (a : String × Mod) : EntryRel P a a :=
  ⟨rfl, rfl, fun _ h => h, fun _ h => h, fun _ h => Or.inl h,
    fun _ _ h => h, fun _ _ h => Or.inl h⟩

theorem entryRel_trans (P : List String) (a b c : String × Mod)
    (h1 : EntryRel P a b) (h2 : EntryRel P b c) : EntryRel P a c := by
  obtain ⟨e1, r1, d1, i1, ib1, o1, ob1⟩ := h1
  obtain ⟨e2, r2, d2, i2, ib2, o2, ob2⟩ := h2
  refine ⟨e1.trans e2, r1.trans r2, fun x h => d2 (d1 h), fun x h => i2 (i1 h),
    ?_, fun key x h => o2 key (o1 key h), ?_⟩
  · intro x h
    rcases ib2 x h with h' | h'
    · exact ib1 x h'
    · exact Or.inr h'
  · intro key t h
    rcases ob2 key t h with h' | h'
    · exact ob1 key t h'
    · exact Or.inr h'

theorem grows_refl (P : List String) (s : Store) : Grows P s s := by
  induction s with
  | nil => exact List.Forall₂.nil
  | cons p rest ih => exact List.Forall₂.cons (entryRel_refl P p) ih

theorem grows_trans (P : List String) (s1 s2 s3 : Store)
    (h1 : Grows P s1 s2) (h2 : Grows P s2 s3) : Grows P s1 s3 := by
  induction h1 generalizing s3 with
  | nil => cases h2; exact List.Forall₂.nil
  | cons hab h ih =>
      cases h2 with
      | cons hbc h' =>
          exact List.Forall₂.cons (entryRel_trans P _ _ _ hab hbc) (ih _ h')

theorem storeGet_cons (p : String × Mod) (rest : Store) (u : String) :
    storeGet (p :: rest) u
      = if p.1 = u then some p.2 else storeGet rest u := by
  by_cases h : p.1 = u
  · simp [storeGet, List.find?_cons, h]
  · simp [storeGet, List.find?_cons, h]

theorem grows_storeGet (P : List String) (s s' : Store) (h : Grows P s s')
    (u : String) (m : Mod) (hm : storeGet s u = some m) :
    ∃ m', storeGet s' u = some m' ∧ EntryRel P (u, m) (u, m') := by
  induction h with
  | nil => simp [storeGet] at hm
  | cons hab hrest ih =>
      rename_i a b l1 l2
      rw [storeGet_cons] at hm
      rw [storeGet_cons]
      by_cases hk : a.1 = u
      · rw [if_pos hk] at hm
        rw [if_pos (hab.1 ▸ hk)]
        injection hm with hm
        refine ⟨b.2, rfl, ?_⟩
        have h2 := hab
        rw [show a = (u, m) from Prod.ext hk hm,
          show b = (u, b.2) from Prod.ext (hab.1 ▸ hk) rfl] at h2
        exact h2
      · rw [if_neg hk] at hm
        rw [if_neg (fun hh => hk (hab.1 ▸ hh))]
        exact ih hm

theorem grows_storeGet_mem (P : List String) (s s' : Store) (h : Grows P s s')
    (e : String × Mod) (he : e ∈ s') : ∃ e0 ∈ s, EntryRel P e0 e := by
  induction h with
  | nil => simp at he
  | cons hab hrest ih =>
      rcases List.mem_cons.mp he with h1 | h1
      · subst h1
        exact ⟨_, List.mem_cons.mpr (Or.inl rfl), hab⟩
      · obtain ⟨e0, he0, hrel⟩ := ih h1
        exact ⟨e0, List.mem_cons.mpr (Or.inr he0), hrel⟩

theorem grows_storePids (P : List String) (s s' : Store) (h : Grows P s s') :
    storePids s' = storePids s := by
  induction h with
  | nil => rfl
  | cons hab hrest ih =>
      simp only [storePids, List.map_cons] at ih ⊢
      rw [ih, hab.2.1]

theorem grows_pidToUuids (P : List String) (s s' : Store) (h : Grows P s s') :
    ∀ pid, pidToUuids s' pid = pidToUuids s pid := by
  intro pid
  induction h with
  | nil => rfl
  | cons hab hrest ih =>
      rename_i a b l1 l2
      obtain ⟨hkey, hraw, _⟩ := hab
      simp only [pidToUuids, List.filter_cons] at ih ⊢
      have hbp : b.2.raw.packageid = a.2.raw.packageid := by rw [hraw]
      rw [hbp]
      by_cases hc : (a.2.raw.packageid == pid) = true
      · rw [if_pos hc, if_pos hc]
        simp only [List.map_cons]
        rw [ih, hkey]
      · rw [if_neg hc, if_neg hc]
        exact ih

/-! Insertion and store-update lemmas. -/

theorem insertSet_subset {α : Type} [DecidableEq α] (l : List α) (x : α) :
    l ⊆ insertSet l x := by
  rw [insertSet]
  by_cases h : x ∈ l
  · rw [if_pos h]
    exact fun y hy => hy
  · rw [if_neg h]
    exact fun y hy => List.mem_append.mpr (Or.inl hy)

theorem insertSet_mem_self {α : Type} [DecidableEq α] (l : List α) (x : α) :
    x ∈ insertSet l x := by
  rw [insertSet]
  by_cases h : x ∈ l
  · rw [if_pos h]; exact h
  · rw [if_neg h]
    exact List.mem_append.mpr (Or.inr (List.mem_cons.mpr (Or.inl rfl)))

theorem insertSet_mem_cases {α : Type} [DecidableEq α] (l : List α) (x y : α)
    (h : y ∈ insertSet l x) : y ∈ l ∨ y = x := by
  rw [insertSet] at h
  by_cases hc : x ∈ l
  · rw [if_pos hc] at h; exact Or.inl h
  · rw [if_neg hc] at h
    rcases List.mem_append.mp h with h' | h'
    · exact Or.inl h'
    · simp at h'
      exact Or.inr h'

theorem insertOrder_subset (m : Mod) (key k' : String) (t : String × Bool) :
    m.order k' ⊆ (m.insertOrder key t).order k' := by
  rw [Mod.insertOrder]
  simp only [updateKey]
  by_cases h : k' = key
  · subst h
    rw [if_pos rfl]
    exact insertSet_subset _ _
  · rw [if_neg h]
    exact fun y hy => hy

theorem insertOrder_mem_self (m : Mod) (key : String) (t : String × Bool) :
    t ∈ (m.insertOrder key t).order key := by
  rw [Mod.insertOrder]
  simp only [updateKey, if_pos rfl]
  exact insertSet_mem_self _ _

theorem insertOrder_mem_cases (m : Mod) (key k' : String) (t t' : String × Bool)
    (h : t' ∈ (m.insertOrder key t).order k') :
    t' ∈ m.order k' ∨ t' = t := by
  rw [Mod.insertOrder] at h
  simp only [updateKey] at h
  by_cases hk : k' = key
  · rw [if_pos hk] at h
    subst hk
    exact insertSet_mem_cases _ _ _ h
  · rw [if_neg hk] at h
    exact Or.inl h

theorem storeGet_storeModify_self (s : Store) (u : String) (f : Mod → Mod)
    (m : Mod) (hm : storeGet s u = some m) :
    storeGet (storeModify s u f) u = some (f m) := by
  induction s with
  | nil => simp [storeGet] at hm
  | cons p rest ih =>
      rw [storeGet_cons] at hm
      rw [storeModify, List.map_cons]
      by_cases hk : p.1 = u
      · rw [if_pos hk] at hm ⊢
        injection hm with hm
        rw [storeGet_cons, if_pos hk]
        rw [hm]
      · rw [if_neg hk] at hm ⊢
        rw [storeGet_cons, if_neg hk]
        exact ih hm

theorem storeGet_storeModify_ne (s : Store) (u u' : String) (f : Mod → Mod)
    (h : u' ≠ u) : storeGet (storeModify s u f) u' = storeGet s u' := by
  induction s with
  | nil => rfl
  | cons p rest ih =>
      rw [storeModify, List.map_cons]
      by_cases hk : p.1 = u
      · rw [if_pos hk, storeGet_cons, storeGet_cons,
          if_neg (fun hh : p.1 = u' => h (hh ▸ hk ▸ rfl)),
          if_neg (fun hh : p.1 = u' => h (hh ▸ hk ▸ rfl))]
        exact ih
      · rw [if_neg hk, storeGet_cons, storeGet_cons]
        by_cases hk' : p.1 = u'
        · rw [if_pos hk', if_pos hk']
        · rw [if_neg hk', if_neg hk']
          exact ih

theorem storeGet_mem (s : Store) (u : String) (m : Mod)
    (hm : storeGet s u = some m) : (u, m) ∈ s := by
  induction s with
  | nil => simp [storeGet] at hm
  | cons p rest ih =>
      rw [storeGet_cons] at hm
      by_cases hk : p.1 = u
      · rw [if_pos hk] at hm
        injection hm with hm
        refine List.mem_cons.mpr (Or.inl ?_)
        cases p
        cases hk
        cases hm
        rfl
      · rw [if_neg hk] at hm
        exact List.mem_cons.mpr (Or.inr (ih hm))

theorem storeModify_grows (P : List String) (s : Store) (u : String)
    (f : Mod → Mod)
    (hf : ∀ m, EntryRel P (u, m) (u, f m)) :
    Grows P s (storeModify s u f) := by
  induction s with
  | nil => exact List.Forall₂.nil
  | cons p rest ih =>
      rw [storeModify, List.map_cons]
      by_cases hk : p.1 = u
      · rw [if_pos hk]
        refine List.Forall₂.cons ?_ ih
        obtain ⟨k0, m0⟩ := p
        simp only at hk
        cases hk
        exact hf m0
      · rw [if_neg hk]
        exact List.Forall₂.cons (entryRel_refl P p) ih

theorem foldl_grows_inv {α : Type} (P : List String) (g : Store → α → Store)
    (l : List α) (s : Store) (hpids : storePids s = P)
    (hstep : ∀ acc x, storePids acc = P → Grows P acc (g acc x)) :
    Grows P s (l.foldl g s) := by
  induction l generalizing s with
  | nil => exact grows_refl P s
  | cons x rest ih =>
      rw [List.foldl_cons]
      have h1 := hstep s x hpids
      have hp1 : storePids (g s x) = P := by
        rw [grows_storePids P s (g s x) h1, hpids]
      exact grows_trans P _ _ _ h1 (ih (g s x) hp1)

theorem entryRel_insertOrder (P : List String) (u key : String)
    (t : String × Bool) (ht : t.1 ∈ P) (m : Mod) :
    EntryRel P (u, m) (u, m.insertOrder key t) := by
  refine ⟨rfl, rfl, fun _ h => h, fun _ h => h, fun x h => Or.inl h,
    fun k' => insertOrder_subset m key k' t, ?_⟩
  intro k' t' h
  rcases insertOrder_mem_cases m key k' t t' h with h' | h'
  · exact Or.inl h'
  · subst h'
    exact Or.inr ht

theorem entryRel_insertIncompat (P : List String) (u x : String) (hx : x ∈ P)
    (m : Mod) :
    EntryRel P (u, m)
      (u, { m with incompatibilities := insertSet m.incompatibilities x }) := by
  refine ⟨rfl, rfl, fun _ h => h, insertSet_subset _ _, ?_,
    fun _ _ h => h, fun _ _ h => Or.inl h⟩
  intro y h
  rcases insertSet_mem_cases _ _ _ h with h' | h'
  · exact Or.inl h'
  · subst h'
    exact Or.inr hx

theorem entryRel_insertDep (P : List String) (u d : String) (m : Mod) :
    EntryRel P (u, m)
      (u, { m with dependencies := insertSet m.dependencies d }) :=
  ⟨rfl, rfl, insertSet_subset _ _, fun _ h => h, fun _ h => Or.inl h,
    fun _ _ h => h, fun _ _ h => Or.inl h⟩

theorem addDependencyToModFromSteamDb_grows (P : List String) (s : Store)
    (u d : String) : Grows P s (addDependencyToModFromSteamDb s u d) :=
  storeModify_grows P s u _ (entryRel_insertDep P u d)

theorem addIncompatibilityToMod_grows (P : List String) (s : Store)
    (u x : String) (hpids : storePids s = P) :
    Grows P s (addIncompatibilityToMod s u x) := by
  rw [addIncompatibilityToMod]
  rcases hg : storeGet s u with _ | m
  · exact grows_refl P s
  · dsimp only
    by_cases hc : ((s.map (fun p => p.2.raw.packageid)).contains (lowerStr x)) = true
    · rw [if_pos hc]
      refine storeModify_grows P s u _ (entryRel_insertIncompat P u _ ?_)
      have : lowerStr x ∈ s.map (fun p => p.2.raw.packageid) := by
        simpa using hc
      rw [show s.map (fun p => p.2.raw.packageid) = storePids s from rfl,
        hpids] at this
      exact this
    · rw [if_neg hc]
      exact grows_refl P s

theorem addLoadRuleToMod_grows (P : List String) (index : String → List String)
    (s : Store) (u x ek ik : String) (hpids : storePids s = P)
    (hidx : ∀ pid, index pid ≠ [] → pid ∈ P) :
    Grows P s (addLoadRuleToMod index s u x ek ik) := by
  rw [addLoadRuleToMod]
  rcases hg : storeGet s u with _ | m
  · exact grows_refl P s
  · dsimp only
    by_cases he : index (lowerStr x) = []
    · rw [if_pos he]
      exact grows_refl P s
    · rw [if_neg he]
      have hdep : lowerStr x ∈ P := hidx _ he
      have hmp : m.raw.packageid ∈ P := by
        rw [← hpids]
        exact List.mem_map.mpr ⟨(u, m), storeGet_mem s u m hg, rfl⟩
      have g1 : Grows P s (storeModify s u
          (fun md => md.insertOrder ek (lowerStr x, true))) :=
        storeModify_grows P s u _
          (entryRel_insertOrder P u ek (lowerStr x, true) hdep)
      refine grows_trans P _ _ _ g1 ?_
      refine foldl_grows_inv P _ _ _
        (by rw [grows_storePids P _ _ g1, hpids]) ?_
      intro acc du _
      exact storeModify_grows P acc du _
        (fun md => entryRel_insertOrder P du ik (m.raw.packageid, false) hmp md)

theorem processDependencies_grows (P : List String)
    (index : String → List String) (dfs : Bool) (s : Store) (u : String)
    (deps : List String) (hpids : storePids s = P)
    (hidx : ∀ pid, index pid ≠ [] → pid ∈ P) :
    Grows P s (processDependencies index dfs s u deps) := by
  rw [processDependencies]
  refine foldl_grows_inv P _ _ _ hpids ?_
  intro acc p hacc
  by_cases hp : p ≠ ""
  · rw [if_pos hp]
    by_cases hd : dfs
    · rw [if_pos hd]
      exact addLoadRuleToMod_grows P index acc u p _ _ hacc hidx
    · rw [if_neg hd]
      exact grows_refl P acc
  · rw [if_neg hp]
    exact grows_refl P acc

theorem processIncompatibilities_grows (P : List String) (s : Store)
    (u : String) (incs : List String) (hpids : storePids s = P) :
    Grows P s (processIncompatibilities s u incs) := by
  rw [processIncompatibilities]
  refine foldl_grows_inv P _ _ _ hpids ?_
  intro acc inc hacc
  exact addIncompatibilityToMod_grows P acc u inc hacc

theorem processLoadOrder_grows (P : List String)
    (index : String → List String) (s : Store) (u : String)
    (lst : List String) (rt ort : String) (hpids : storePids s = P)
    (hidx : ∀ pid, index pid ≠ [] → pid ∈ P) :
    Grows P s (processLoadOrder index s u lst rt ort) := by
  rw [processLoadOrder]
  refine foldl_grows_inv P _ _ _ hpids ?_
  intro acc x hacc
  exact addLoadRuleToMod_grows P index acc u x rt ort hacc hidx

theorem compileOneVersioned_grows (P : List String)
    (index : String → List String) (dfs : Bool) (ma mi : String) (s1 : Store)
    (u : String) (m : Mod) (hpids : storePids s1 = P)
    (hidx : ∀ pid, index pid ≠ [] → pid ∈ P) :
    Grows P s1 (compileOneVersioned index dfs ma mi s1 u m) := by
  rw [compileOneVersioned]
  have step2 : ∀ (s' : Store), storePids s' = P →
      ∀ lst : List (String × List String),
      Grows P s' (lst.foldl (fun acc pv =>
        if versionMatchKey ma mi pv.1 then
          processDependencies index dfs acc u pv.2
        else acc) s') := by
    intro s' hp lst
    refine foldl_grows_inv P _ _ _ hp ?_
    intro acc pv hacc
    by_cases hv : versionMatchKey ma mi pv.1 = true
    · rw [if_pos hv]
      exact processDependencies_grows P index dfs acc u pv.2 hacc hidx
    · rw [if_neg hv]
      exact grows_refl P acc
  have stepInc : ∀ (s' : Store), storePids s' = P →
      ∀ lst : List (String × List String),
      Grows P s' (lst.foldl (fun acc pv =>
        if versionMatchKey ma mi pv.1 then
          processIncompatibilities acc u pv.2
        else acc) s') := by
    intro s' hp lst
    refine foldl_grows_inv P _ _ _ hp ?_
    intro acc pv hacc
    by_cases hv : versionMatchKey ma mi pv.1 = true
    · rw [if_pos hv]
      exact processIncompatibilities_grows P acc u pv.2 hacc
    · rw [if_neg hv]
      exact grows_refl P acc
  have stepLO : ∀ (s' : Store), storePids s' = P → ∀ rt ort,
      ∀ lst : List (String × List String),
      Grows P s' (lst.foldl (fun acc pv =>
        if versionMatchKey ma mi pv.1 then
          processLoadOrder index acc u pv.2 rt ort
        else acc) s') := by
    intro s' hp rt ort lst
    refine foldl_grows_inv P _ _ _ hp ?_
    intro acc pv hacc
    by_cases hv : versionMatchKey ma mi pv.1 = true
    · rw [if_pos hv]
      exact processLoadOrder_grows P index acc u pv.2 rt ort hacc hidx
    · rw [if_neg hv]
      exact grows_refl P acc
  have g2 := step2 s1 hpids m.raw.moddependenciesbyversion
  have p2 := (grows_storePids P _ _ g2).trans hpids
  have g3 := processIncompatibilities_grows P _ u m.raw.incompatiblewith p2
  have p3 := (grows_storePids P _ _ g3).trans p2
  have g4 := stepInc _ p3 m.raw.incompatiblewithbyversion
  have p4 := (grows_storePids P _ _ g4).trans p3
  have g5 := processLoadOrder_grows P index _ u m.raw.loadafter
    "loadTheseBefore" "loadTheseAfter" p4 hidx
  have p5 := (grows_storePids P _ _ g5).trans p4
  have g6 := processLoadOrder_grows P index _ u m.raw.forceloadafter
    "loadTheseBefore" "loadTheseAfter" p5 hidx
  have p6 := (grows_storePids P _ _ g6).trans p5
  have g7 := stepLO _ p6 "loadTheseBefore" "loadTheseAfter"
    m.raw.loadafterbyversion
  have p7 := (grows_storePids P _ _ g7).trans p6
  have g8 := processLoadOrder_grows P index _ u m.raw.loadbefore
    "loadTheseAfter" "loadTheseBefore" p7 hidx
  have p8 := (grows_storePids P _ _ g8).trans p7
  have g9 := processLoadOrder_grows P index _ u m.raw.forceloadbefore
    "loadTheseAfter" "loadTheseBefore" p8 hidx
  have p9 := (grows_storePids P _ _ g9).trans p8
  have g10 := stepLO _ p9 "loadTheseAfter" "loadTheseBefore"
    m.raw.loadbeforebyversion
  exact grows_trans P _ _ _ g2 (grows_trans P _ _ _ g3 (grows_trans P _ _ _ g4
    (grows_trans P _ _ _ g5 (grows_trans P _ _ _ g6 (grows_trans P _ _ _ g7
      (grows_trans P _ _ _ g8 (grows_trans P _ _ _ g9 g10)))))))

theorem compileOne_grows (P : List String) (index : String → List String)
    (dfs : Bool) (gv : String) (s : Store) (u : String) (s' : Store)
    (hpids : storePids s = P) (hidx : ∀ pid, index pid ≠ [] → pid ∈ P)
    (h : compileOne index dfs gv s u = .ok s') : Grows P s s' := by
  rw [compileOne] at h
  rcases hg : storeGet s u with _ | m
  · rw [hg] at h
    injection h with h
    subst h
    exact grows_refl P s
  · rw [hg] at h
    dsimp only at h
    rcases hsp : splitDot gv with _ | ⟨ma, rest1⟩
    · rw [hsp] at h
      exact Except.noConfusion h
    · rcases rest1 with _ | ⟨mi, rest2⟩
      · rw [hsp] at h
        exact Except.noConfusion h
      · rw [hsp] at h
        injection h with h
        subst h
        have g1 := processDependencies_grows P index dfs s u
          m.raw.moddependencies hpids hidx
        have p1 := (grows_storePids P _ _ g1).trans hpids
        exact grows_trans P _ _ _ g1
          (compileOneVersioned_grows P index dfs ma mi _ u m p1 hidx)

theorem compileList_grows (P : List String) (index : String → List String)
    (dfs : Bool) (gv : String) (uuids : List String) (s s' : Store)
    (hpids : storePids s = P) (hidx : ∀ pid, index pid ≠ [] → pid ∈ P)
    (h : compileList index dfs gv s uuids = .ok s') : Grows P s s' := by
  induction uuids generalizing s with
  | nil =>
      rw [compileList] at h
      injection h with h
      subst h
      exact grows_refl P s
  | cons u rest ih =>
      rw [compileList] at h
      rcases hc : compileOne index dfs gv s u with e | s1
      · rw [hc] at h
        exact Except.noConfusion h
      · rw [hc] at h
        have g1 := compileOne_grows P index dfs gv s u s1 hpids hidx hc
        have p1 := (grows_storePids P _ _ g1).trans hpids
        exact grows_trans P _ _ _ g1 (ih s1 p1 h)

theorem steamPhase_grows (P : List String) (index : String → List String)
    (s : Store) (db : List (String × SteamEntry)) (hpids : storePids s = P) :
    Grows P s (steamPhase index s db) := by
  rw [steamPhase]
  refine foldl_grows_inv P _ _ _ hpids ?_
  intro acc uv hacc
  refine foldl_grows_inv P _ _ _ hacc ?_
  intro acc2 d hacc2
  split
  · exact addDependencyToModFromSteamDb_grows P acc2 uv.1 _
  · exact grows_refl P acc2

theorem processExternalRules_grows (P : List String)
    (index : String → List String) (s : Store)
    (rules : List (String × RuleEntry)) (rt ort : String)
    (hpids : storePids s = P) (hidx : ∀ pid, index pid ≠ [] → pid ∈ P) :
    Grows P s (processExternalRules index s rules rt ort) := by
  rw [processExternalRules]
  refine foldl_grows_inv P _ _ _ hpids ?_
  intro acc pv hacc
  by_cases he : index (lowerStr pv.1) = []
  · rw [if_pos he]
    exact grows_refl P acc
  · rw [if_neg he]
    have inner : ∀ (s0 : Store), storePids s0 = P → ∀ lst : List String,
        Grows P s0 (lst.foldl (fun a2 x => (index (lowerStr pv.1)).foldl
          (fun a3 du => addLoadRuleToMod index a3 du x rt ort) a2) s0) := by
      intro s0 hp0 lst
      refine foldl_grows_inv P _ _ _ hp0 ?_
      intro a2 x ha2
      refine foldl_grows_inv P _ _ _ ha2 ?_
      intro a3 du ha3
      exact addLoadRuleToMod_grows P index a3 du x rt ort ha3 hidx
    have g1 := inner acc hacc (ruleList pv.2 rt)
    have q1 := (grows_storePids P _ _ g1).trans hacc
    have g2 := inner _ q1 pv.2.loadBottom
    have q2 := (grows_storePids P _ _ g2).trans q1
    have g3 := inner _ q2 pv.2.loadTop
    exact grows_trans P _ _ _ g1 (grows_trans P _ _ _ g2 g3)

theorem pidToUuids_ne_nil_mem (s : Store) (pid : String)
    (h : pidToUuids s pid ≠ []) : pid ∈ storePids s := by
  rw [pidToUuids] at h
  rcases hf : s.filter (fun p => p.2.raw.packageid == pid) with _ | ⟨e, rest⟩
  · rw [hf] at h
    simp at h
  · have he : e ∈ s.filter (fun p => p.2.raw.packageid == pid) := by
      rw [hf]
      exact List.mem_cons.mpr (Or.inl rfl)
    have hmem := List.mem_of_mem_filter he
    have hpid : e.2.raw.packageid = pid := by
      simpa using List.of_mem_filter he
    rw [storePids]
    exact List.mem_map.mpr ⟨e, hmem, hpid⟩

theorem postPhases_grows (P : List String) (index : String → List String)
    (s1 : Store) (steamDb : Option (List (String × SteamEntry)))
    (cr ur : Option (List (String × RuleEntry)))
    (hp1 : storePids s1 = P) (hidx : ∀ pid, index pid ≠ [] → pid ∈ P) :
    Grows P s1 (postPhases index s1 steamDb cr ur) := by
  unfold postPhases
  have rulePair : ∀ (s0 : Store), storePids s0 = P →
      ∀ r : List (String × RuleEntry),
      Grows P s0 (processExternalRules index
        (processExternalRules index s0 r "loadBefore" "loadAfter")
        r "loadAfter" "loadBefore") := by
    intro s0 hp0 r
    have ga := processExternalRules_grows P index s0 r
      "loadBefore" "loadAfter" hp0 hidx
    have pa := (grows_storePids P _ _ ga).trans hp0
    exact grows_trans P _ _ _ ga
      (processExternalRules_grows P index _ r "loadAfter" "loadBefore" pa hidx)
  set S2 := (match steamDb with
    | some db => if db.isEmpty then s1 else steamPhase index s1 db
    | none => s1) with hS2
  set S3 := (match cr with
    | some r =>
        if r.isEmpty then S2
        else processExternalRules index
          (processExternalRules index S2 r "loadBefore" "loadAfter")
          r "loadAfter" "loadBefore"
    | none => S2) with hS3
  have g2 : Grows P s1 S2 := by
    rw [hS2]
    rcases steamDb with _ | db
    · exact grows_refl P s1
    · dsimp only
      split
      · exact grows_refl P s1
      · exact steamPhase_grows P index s1 db hp1
  have p2 := (grows_storePids P _ _ g2).trans hp1
  have g3 : Grows P S2 S3 := by
    rw [hS3]
    rcases cr with _ | r
    · exact grows_refl P S2
    · dsimp only
      split
      · exact grows_refl P S2
      · exact rulePair S2 p2 r
  have p3 := (grows_storePids P _ _ g3).trans p2
  have g4 : Grows P S3 (match ur with
      | some r =>
          if r.isEmpty then S3
          else processExternalRules index
            (processExternalRules index S3 r "loadBefore" "loadAfter")
            r "loadAfter" "loadBefore"
      | none => S3) := by
    rcases ur with _ | r
    · exact grows_refl P S3
    · dsimp only
      split
      · exact grows_refl P S3
      · exact rulePair S3 p3 r
  exact grows_trans P _ _ _ g2 (grows_trans P _ _ _ g3 g4)

/-- Elimination form of `compileMetadata`: a successful run is a successful
descriptor-loop pass followed by the external phases. -/
theorem compileMetadata_ok_elim (s : Store) (uuids0 : List String)
    (gv : String) (dfs : Bool) (steamDb : Option (List (String × SteamEntry)))
    (cr ur : Option (List (String × RuleEntry))) (s' : Store)
    (h : compileMetadata s uuids0 gv dfs steamDb cr ur = .ok s') :
    ∃ s1, compileList (pidToUuids s) dfs gv s
        (if uuids0.isEmpty then s.map Prod.fst else uuids0) = .ok s1
      ∧ s' = postPhases (pidToUuids s) s1 steamDb cr ur := by
  rw [compileMetadata] at h
  rcases hc : compileList (pidToUuids s) dfs gv s
      (if uuids0.isEmpty then s.map Prod.fst else uuids0) with e | s1
  · rw [hc] at h
    exact Except.noConfusion h
  · rw [hc] at h
    have h2 : (Except.ok (postPhases (pidToUuids s) s1 steamDb cr ur) :
        Except String Store) = .ok s' := h
    injection h2 with h2
    exact ⟨s1, rfl, h2.symm⟩

/-- Every successful run of `compile_metadata` only grows the derived
relation sets, never changes a raw field, and every incompatibility and
ordering tuple it adds names a packageid installed at compile time. -/
theorem compileMetadata_grows (s : Store) (uuids0 : List String) (gv : String)
    (dfs : Bool) (steamDb : Option (List (String × SteamEntry)))
    (cr ur : Option (List (String × RuleEntry))) (s' : Store)
    (h : compileMetadata s uuids0 gv dfs steamDb cr ur = .ok s') :
    Grows (storePids s) s s' := by
  obtain ⟨s1, hc, hpost⟩ :=
    compileMetadata_ok_elim s uuids0 gv dfs steamDb cr ur s' h
  have hidx : ∀ pid, pidToUuids s pid ≠ [] → pid ∈ storePids s :=
    fun pid hp => pidToUuids_ne_nil_mem s pid hp
  have g1 := compileList_grows (storePids s) (pidToUuids s) dfs gv _ s s1
    rfl hidx hc
  have p1 := (grows_storePids _ _ _ g1).trans
    (rfl : storePids s = storePids s)
  rw [hpost]
  exact grows_trans _ _ _ _ g1
    (postPhases_grows (storePids s) (pidToUuids s) s1 steamDb cr ur p1 hidx)

/-! ### Reachability: the insertions the descriptor loop actually performs -/

theorem compileOneVersioned_decomp (index : String → List String) (dfs : Bool)
    (ma mi : String) (s1 : Store) (u : String) (m : Mod) :
    compileOneVersioned index dfs ma mi s1 u m
      = verLOFold index ma mi u "loadTheseAfter" "loadTheseBefore"
          m.raw.loadbeforebyversion
          (processLoadOrder index
            (processLoadOrder index
              (verLOFold index ma mi u "loadTheseBefore" "loadTheseAfter"
                m.raw.loadafterbyversion
                (processLoadOrder index
                  (processLoadOrder index
                    (verIncFold ma mi u m.raw.incompatiblewithbyversion
                      (processIncompatibilities
                        (verDepFold index dfs ma mi u
                          m.raw.moddependenciesbyversion s1)
                        u m.raw.incompatiblewith))
                    u m.raw.loadafter "loadTheseBefore" "loadTheseAfter")
                  u m.raw.forceloadafter "loadTheseBefore" "loadTheseAfter"))
              u m.raw.loadbefore "loadTheseAfter" "loadTheseBefore")
            u m.raw.forceloadbefore "loadTheseAfter" "loadTheseBefore") := rfl

theorem verDepFold_grows (P : List String) (index : String → List String)
    (dfs : Bool) (ma mi u : String) (lst : List (String × List String))
    (s0 : Store) (hp : storePids s0 = P)
    (hidx : ∀ pid, index pid ≠ [] → pid ∈ P) :
    Grows P s0 (verDepFold index dfs ma mi u lst s0) := by
  refine foldl_grows_inv P _ _ _ hp ?_
  intro acc pv hacc
  by_cases hv : versionMatchKey ma mi pv.1 = true
  · rw [if_pos hv]
    exact processDependencies_grows P index dfs acc u pv.2 hacc hidx
  · rw [if_neg hv]
    exact grows_refl P acc

theorem verIncFold_grows (P : List String) (ma mi u : String)
    (lst : List (String × List String)) (s0 : Store)
    (hp : storePids s0 = P) :
    Grows P s0 (verIncFold ma mi u lst s0) := by
  refine foldl_grows_inv P _ _ _ hp ?_
  intro acc pv hacc
  by_cases hv : versionMatchKey ma mi pv.1 = true
  · rw [if_pos hv]
    exact processIncompatibilities_grows P acc u pv.2 hacc
  · rw [if_neg hv]
    exact grows_refl P acc

theorem verLOFold_grows (P : List String) (index : String → List String)
    (ma mi u rt ort : String) (lst : List (String × List String))
    (s0 : Store) (hp : storePids s0 = P)
    (hidx : ∀ pid, index pid ≠ [] → pid ∈ P) :
    Grows P s0 (verLOFold index ma mi u rt ort lst s0) := by
  refine foldl_grows_inv P _ _ _ hp ?_
  intro acc pv hacc
  by_cases hv : versionMatchKey ma mi pv.1 = true
  · rw [if_pos hv]
    exact processLoadOrder_grows P index acc u pv.2 rt ort hacc hidx
  · rw [if_neg hv]
    exact grows_refl P acc

theorem order_mem_persist (P : List String) (s s' : Store) (h : Grows P s s')
    (u key : String) (t : String × Bool) (m : Mod)
    (hm : storeGet s u = some m) (ht : t ∈ m.order key) :
    ∃ m', storeGet s' u = some m' ∧ t ∈ m'.order key := by
  obtain ⟨m', hm', hrel⟩ := grows_storeGet P s s' h u m hm
  exact ⟨m', hm', hrel.2.2.2.2.2.1 key ht⟩

theorem incompat_mem_persist (P : List String) (s s' : Store)
    (h : Grows P s s') (u x : String) (m : Mod)
    (hm : storeGet s u = some m) (hx : x ∈ m.incompatibilities) :
    ∃ m', storeGet s' u = some m' ∧ x ∈ m'.incompatibilities := by
  obtain ⟨m', hm', hrel⟩ := grows_storeGet P s s' h u m hm
  exact ⟨m', hm', hrel.2.2.2.1 hx⟩

theorem grows_ne_none (P : List String) (s s' : Store) (h : Grows P s s')
    (u : String) (hn : storeGet s u ≠ none) : storeGet s' u ≠ none := by
  rcases hg : storeGet s u with _ | m
  · exact absurd hg hn
  · obtain ⟨m', hm', _⟩ := grows_storeGet P s s' h u m hg
    rw [hm']
    exact fun hh => Option.noConfusion hh

theorem mem_pidToUuids (s : Store) (u : String) (m : Mod)
    (hm : storeGet s u = some m) : u ∈ pidToUuids s m.raw.packageid := by
  rw [pidToUuids]
  refine List.mem_map.mpr ⟨(u, m), ?_, rfl⟩
  refine List.mem_filter.mpr ⟨storeGet_mem s u m hm, ?_⟩
  simp

theorem foldl_insertOrder_grows (P : List String) (ik : String)
    (t : String × Bool) (ht : t.1 ∈ P) (l : List String) (s0 : Store)
    (hp : storePids s0 = P) :
    Grows P s0 (l.foldl (fun acc v => storeModify acc v
      (fun q => q.insertOrder ik t)) s0) := by
  refine foldl_grows_inv P _ _ _ hp ?_
  intro acc v _
  exact storeModify_grows P acc v _ (entryRel_insertOrder P v ik t ht)

theorem foldl_insertOrder_mem (P : List String) (ik : String)
    (t : String × Bool) (ht : t.1 ∈ P) (l : List String) :
    ∀ (s0 : Store), storePids s0 = P → ∀ du ∈ l, storeGet s0 du ≠ none →
    ∃ dm', storeGet (l.foldl (fun acc v => storeModify acc v
        (fun q => q.insertOrder ik t)) s0) du = some dm'
      ∧ t ∈ dm'.order ik := by
  induction l with
  | nil =>
      intro s0 _ du hdu
      simp at hdu
  | cons v rest ih =>
      intro s0 hp du hdu hnn
      rw [List.foldl_cons]
      have hstep : Grows P s0 (storeModify s0 v (fun q => q.insertOrder ik t)) :=
        storeModify_grows P s0 v _ (entryRel_insertOrder P v ik t ht)
      have hp' : storePids (storeModify s0 v (fun q => q.insertOrder ik t)) = P :=
        (grows_storePids P _ _ hstep).trans hp
      by_cases hv : du = v
      · subst hv
        rcases hg : storeGet s0 du with _ | dm
        · exact absurd hg hnn
        · have h1 : storeGet (storeModify s0 du (fun q => q.insertOrder ik t)) du
              = some (dm.insertOrder ik t) :=
            storeGet_storeModify_self s0 du _ dm hg
          have hrest := foldl_insertOrder_grows P ik t ht rest _ hp'
          exact order_mem_persist P _ _ hrest du ik t _ h1
            (insertOrder_mem_self dm ik t)
      · have hdu' : du ∈ rest := by
          rcases List.mem_cons.mp hdu with h | h
          · exact absurd h hv
          · exact h
        have hnn' : storeGet (storeModify s0 v (fun q => q.insertOrder ik t)) du
            ≠ none := by
          rw [storeGet_storeModify_ne s0 v du _ hv]
          exact hnn
        exact ih _ hp' du hdu' hnn'

theorem addLoadRuleToMod_explicit (P : List String)
    (index : String → List String) (s : Store) (u x ek ik : String) (m : Mod)
    (hp : storePids s = P) (hidx : ∀ pid, index pid ≠ [] → pid ∈ P)
    (hm : storeGet s u = some m) (hne : index (lowerStr x) ≠ []) :
    ∃ m', storeGet (addLoadRuleToMod index s u x ek ik) u = some m'
      ∧ (lowerStr x, true) ∈ m'.order ek := by
  rw [addLoadRuleToMod, hm]
  dsimp only
  rw [if_neg hne]
  have hdep : lowerStr x ∈ P := hidx _ hne
  have hmp : m.raw.packageid ∈ P := by
    rw [← hp]
    exact List.mem_map.mpr ⟨(u, m), storeGet_mem s u m hm, rfl⟩
  have g1 : Grows P s (storeModify s u
      (fun md => md.insertOrder ek (lowerStr x, true))) :=
    storeModify_grows P s u _ (entryRel_insertOrder P u ek (lowerStr x, true) hdep)
  have hp1 := (grows_storePids P _ _ g1).trans hp
  have h1 : storeGet (storeModify s u
        (fun md => md.insertOrder ek (lowerStr x, true))) u
      = some (m.insertOrder ek (lowerStr x, true)) :=
    storeGet_storeModify_self s u _ m hm
  have g2 := foldl_insertOrder_grows P ik (m.raw.packageid, false) hmp
    (index (lowerStr x)) _ hp1
  exact order_mem_persist P _ _ g2 u ek (lowerStr x, true) _ h1
    (insertOrder_mem_self m ek (lowerStr x, true))

theorem addLoadRuleToMod_implied (P : List String)
    (index : String → List String) (s : Store) (u x ek ik : String) (m : Mod)
    (du : String)
    (hp : storePids s = P) (hidx : ∀ pid, index pid ≠ [] → pid ∈ P)
    (hm : storeGet s u = some m) (hne : index (lowerStr x) ≠ [])
    (hdu : du ∈ index (lowerStr x)) (hnn : storeGet s du ≠ none) :
    ∃ dm', storeGet (addLoadRuleToMod index s u x ek ik) du = some dm'
      ∧ (m.raw.packageid, false) ∈ dm'.order ik := by
  rw [addLoadRuleToMod, hm]
  dsimp only
  rw [if_neg hne]
  have hdep : lowerStr x ∈ P := hidx _ hne
  have hmp : m.raw.packageid ∈ P := by
    rw [← hp]
    exact List.mem_map.mpr ⟨(u, m), storeGet_mem s u m hm, rfl⟩
  have g1 : Grows P s (storeModify s u
      (fun md => md.insertOrder ek (lowerStr x, true))) :=
    storeModify_grows P s u _ (entryRel_insertOrder P u ek (lowerStr x, true) hdep)
  have hp1 := (grows_storePids P _ _ g1).trans hp
  have hnn1 : storeGet (storeModify s u
      (fun md => md.insertOrder ek (lowerStr x, true))) du ≠ none :=
    grows_ne_none P _ _ g1 du hnn
  exact foldl_insertOrder_mem P ik (m.raw.packageid, false) hmp
    (index (lowerStr x)) _ hp1 du hdu hnn1

theorem addIncompatibilityToMod_inserts (s : Store) (u x : String) (m : Mod)
    (hm : storeGet s u = some m) (hdep : lowerStr x ∈ storePids s) :
    ∃ m', storeGet (addIncompatibilityToMod s u x) u = some m'
      ∧ lowerStr x ∈ m'.incompatibilities := by
  rw [addIncompatibilityToMod, hm]
  dsimp only
  have hdep' : lowerStr x ∈ s.map (fun p => p.2.raw.packageid) := hdep
  have hc : ((s.map (fun p => p.2.raw.packageid)).contains (lowerStr x))
      = true := by
    simpa using hdep'
  rw [if_pos hc]
  exact ⟨_, storeGet_storeModify_self s u _ m hm, insertSet_mem_self _ _⟩

theorem processLoadOrder_inserts (P : List String)
    (index : String → List String) (rt ort x : String) (lst : List String) :
    ∀ (s : Store) (u : String) (m : Mod), storePids s = P →
      (∀ pid, index pid ≠ [] → pid ∈ P) →
      storeGet s u = some m → x ∈ lst → index (lowerStr x) ≠ [] →
      (∃ m', storeGet (processLoadOrder index s u lst rt ort) u = some m'
        ∧ (lowerStr x, true) ∈ m'.order rt)
      ∧ (∀ du ∈ index (lowerStr x), storeGet s du ≠ none →
        ∃ dm', storeGet (processLoadOrder index s u lst rt ort) du = some dm'
          ∧ (m.raw.packageid, false) ∈ dm'.order ort) := by
  induction lst with
  | nil =>
      intro s u m _ _ _ hx
      simp at hx
  | cons y rest ih =>
      intro s u m hp hidx hm hx hne
      rw [processLoadOrder, List.foldl_cons]
      have gstep : Grows P s (addLoadRuleToMod index s u y rt ort) :=
        addLoadRuleToMod_grows P index s u y rt ort hp hidx
      have hp1 := (grows_storePids P _ _ gstep).trans hp
      obtain ⟨m1, hm1, hrel1⟩ := grows_storeGet P _ _ gstep u m hm
      by_cases hxy : x = y
      · subst hxy
        have grest : Grows P (addLoadRuleToMod index s u x rt ort)
            (processLoadOrder index (addLoadRuleToMod index s u x rt ort) u
              rest rt ort) :=
          processLoadOrder_grows P index _ u rest rt ort hp1 hidx
        constructor
        · obtain ⟨me, hme, hte⟩ :=
            addLoadRuleToMod_explicit P index s u x rt ort m hp hidx hm hne
          exact order_mem_persist P _ _ grest u rt (lowerStr x, true) me hme hte
        · intro du hdu hnn
          obtain ⟨dme, hdme, hdte⟩ :=
            addLoadRuleToMod_implied P index s u x rt ort m du hp hidx hm hne
              hdu hnn
          exact order_mem_persist P _ _ grest du ort (m.raw.packageid, false)
            dme hdme hdte
      · have hx' : x ∈ rest := by
          rcases List.mem_cons.mp hx with h | h
          · exact absurd h hxy
          · exact h
        have hmain := ih (addLoadRuleToMod index s u y rt ort) u m1 hp1 hidx
          hm1 hx' hne
        have hraw : m1.raw = m.raw := hrel1.2.1.symm
        constructor
        · exact hmain.1
        · intro du hdu hnn
          have hnn1 : storeGet (addLoadRuleToMod index s u y rt ort) du
              ≠ none :=
            grows_ne_none P _ _ gstep du hnn
          obtain ⟨dm', hdm', hdt⟩ := hmain.2 du hdu hnn1
          refine ⟨dm', hdm', ?_⟩
          rw [← hraw]
          exact hdt

theorem processIncompatibilities_inserts (P : List String) (x : String)
    (incs : List String) :
    ∀ (s : Store) (u : String) (m : Mod), storePids s = P →
      storeGet s u = some m → x ∈ incs → lowerStr x ∈ P →
      ∃ m', storeGet (processIncompatibilities s u incs) u = some m'
        ∧ lowerStr x ∈ m'.incompatibilities := by
  induction incs with
  | nil =>
      intro s u m _ _ hx
      simp at hx
  | cons y rest ih =>
      intro s u m hp hm hx hdep
      rw [processIncompatibilities, List.foldl_cons]
      have gstep : Grows P s (addIncompatibilityToMod s u y) :=
        addIncompatibilityToMod_grows P s u y hp
      have hp1 := (grows_storePids P _ _ gstep).trans hp
      obtain ⟨m1, hm1, _⟩ := grows_storeGet P _ _ gstep u m hm
      by_cases hxy : x = y
      · subst hxy
        obtain ⟨me, hme, hte⟩ := addIncompatibilityToMod_inserts s u x m hm
          (by rw [hp]; exact hdep)
        have grest : Grows P (addIncompatibilityToMod s u x)
            (processIncompatibilities (addIncompatibilityToMod s u x) u rest) :=
          processIncompatibilities_grows P _ u rest hp1
        exact incompat_mem_persist P _ _ grest u (lowerStr x) me hme hte
      · have hx' : x ∈ rest := by
          rcases List.mem_cons.mp hx with h | h
          · exact absurd h hxy
          · exact h
        exact ih _ u m1 hp1 hm1 hx' hdep

theorem compileOneVersioned_inserts (P : List String)
    (index : String → List String) (dfs : Bool) (ma mi : String) (sA : Store)
    (u : String) (m : Mod) (hp : storePids sA = P)
    (hidx : ∀ pid, index pid ≠ [] → pid ∈ P) (mA : Mod)
    (hmA : storeGet sA u = some mA) (hrawA : mA.raw = m.raw) :
    (∀ x ∈ m.raw.loadafter, index (lowerStr x) ≠ [] →
      (∃ m', storeGet (compileOneVersioned index dfs ma mi sA u m) u = some m'
        ∧ (lowerStr x, true) ∈ m'.order "loadTheseBefore")
      ∧ (∀ du ∈ index (lowerStr x), storeGet sA du ≠ none →
        ∃ dm', storeGet (compileOneVersioned index dfs ma mi sA u m) du
            = some dm'
          ∧ (m.raw.packageid, false) ∈ dm'.order "loadTheseAfter"))
    ∧ (∀ x ∈ m.raw.loadbefore, index (lowerStr x) ≠ [] →
      (∃ m', storeGet (compileOneVersioned index dfs ma mi sA u m) u = some m'
        ∧ (lowerStr x, true) ∈ m'.order "loadTheseAfter")
      ∧ (∀ du ∈ index (lowerStr x), storeGet sA du ≠ none →
        ∃ dm', storeGet (compileOneVersioned index dfs ma mi sA u m) du
            = some dm'
          ∧ (m.raw.packageid, false) ∈ dm'.order "loadTheseBefore"))
    ∧ (∀ x ∈ m.raw.incompatiblewith, lowerStr x ∈ P →
      ∃ m', storeGet (compileOneVersioned index dfs ma mi sA u m) u = some m'
        ∧ lowerStr x ∈ m'.incompatibilities) := by
  rw [compileOneVersioned_decomp]
  have g2 := verDepFold_grows P index dfs ma mi u
    m.raw.moddependenciesbyversion sA hp hidx
  have p2 := (grows_storePids P _ _ g2).trans hp
  obtain ⟨m2, hm2, r2⟩ := grows_storeGet P _ _ g2 u mA hmA
  have hraw2 : m2.raw = m.raw := r2.2.1.symm.trans hrawA
  have g3 := processIncompatibilities_grows P _ u m.raw.incompatiblewith p2
  have p3 := (grows_storePids P _ _ g3).trans p2
  obtain ⟨m3, hm3, r3⟩ := grows_storeGet P _ _ g3 u m2 hm2
  have hraw3 : m3.raw = m.raw := r3.2.1.symm.trans hraw2
  have g4 := verIncFold_grows P ma mi u m.raw.incompatiblewithbyversion _ p3
  have p4 := (grows_storePids P _ _ g4).trans p3
  obtain ⟨m4, hm4, r4⟩ := grows_storeGet P _ _ g4 u m3 hm3
  have hraw4 : m4.raw = m.raw := r4.2.1.symm.trans hraw3
  have g5 := processLoadOrder_grows P index _ u m.raw.loadafter
    "loadTheseBefore" "loadTheseAfter" p4 hidx
  have p5 := (grows_storePids P _ _ g5).trans p4
  obtain ⟨m5, hm5, r5⟩ := grows_storeGet P _ _ g5 u m4 hm4
  have hraw5 : m5.raw = m.raw := r5.2.1.symm.trans hraw4
  have g6 := processLoadOrder_grows P index _ u m.raw.forceloadafter
    "loadTheseBefore" "loadTheseAfter" p5 hidx
  have p6 := (grows_storePids P _ _ g6).trans p5
  obtain ⟨m6, hm6, r6⟩ := grows_storeGet P _ _ g6 u m5 hm5
  have hraw6 : m6.raw = m.raw := r6.2.1.symm.trans hraw5
  have g7 := verLOFold_grows P index ma mi u "loadTheseBefore" "loadTheseAfter"
    m.raw.loadafterbyversion _ p6 hidx
  have p7 := (grows_storePids P _ _ g7).trans p6
  obtain ⟨m7, hm7, r7⟩ := grows_storeGet P _ _ g7 u m6 hm6
  have hraw7 : m7.raw = m.raw := r7.2.1.symm.trans hraw6
  have g8 := processLoadOrder_grows P index _ u m.raw.loadbefore
    "loadTheseAfter" "loadTheseBefore" p7 hidx
  have p8 := (grows_storePids P _ _ g8).trans p7
  have g9 := processLoadOrder_grows P index _ u m.raw.forceloadbefore
    "loadTheseAfter" "loadTheseBefore" p8 hidx
  have p9 := (grows_storePids P _ _ g9).trans p8
  have g10 := verLOFold_grows P index ma mi u "loadTheseAfter"
    "loadTheseBefore" m.raw.loadbeforebyversion _ p9 hidx
  refine ⟨?_, ?_, ?_⟩
  · intro x hx hne
    have hlst : x ∈ m.raw.loadafter := hx
    have hins := processLoadOrder_inserts P index "loadTheseBefore"
      "loadTheseAfter" x m.raw.loadafter _ u m4 p4 hidx hm4 hlst hne
    have gtail := grows_trans P _ _ _ g6 (grows_trans P _ _ _ g7
      (grows_trans P _ _ _ g8 (grows_trans P _ _ _ g9 g10)))
    constructor
    · obtain ⟨m', hm', ht⟩ := hins.1
      exact order_mem_persist P _ _ gtail u _ _ m' hm' ht
    · intro du hdu hnn
      have hnn4 : storeGet _ du ≠ none := grows_ne_none P _ _
        (grows_trans P _ _ _ g2 (grows_trans P _ _ _ g3 g4)) du hnn
      obtain ⟨dm', hdm', hdt⟩ := hins.2 du hdu hnn4
      obtain ⟨dm2, hdm2, hdt2⟩ := order_mem_persist P _ _ gtail du _ _ dm'
        hdm' hdt
      refine ⟨dm2, hdm2, ?_⟩
      rw [show m.raw.packageid = m4.raw.packageid from by rw [hraw4]]
      exact hdt2
  · intro x hx hne
    have hins := processLoadOrder_inserts P index "loadTheseAfter"
      "loadTheseBefore" x m.raw.loadbefore _ u m7 p7 hidx hm7 hx hne
    have gtail := grows_trans P _ _ _ g9 g10
    constructor
    · obtain ⟨m', hm', ht⟩ := hins.1
      exact order_mem_persist P _ _ gtail u _ _ m' hm' ht
    · intro du hdu hnn
      have hnn7 : storeGet _ du ≠ none := grows_ne_none P _ _
        (grows_trans P _ _ _ g2 (grows_trans P _ _ _ g3
          (grows_trans P _ _ _ g4 (grows_trans P _ _ _ g5
            (grows_trans P _ _ _ g6 g7))))) du hnn
      obtain ⟨dm', hdm', hdt⟩ := hins.2 du hdu hnn7
      obtain ⟨dm2, hdm2, hdt2⟩ := order_mem_persist P _ _ gtail du _ _ dm'
        hdm' hdt
      refine ⟨dm2, hdm2, ?_⟩
      rw [show m.raw.packageid = m7.raw.packageid from by rw [hraw7]]
      exact hdt2
  · intro x hx hdep
    have hins := processIncompatibilities_inserts P x m.raw.incompatiblewith
      _ u m2 p2 hm2 hx hdep
    have gtail := grows_trans P _ _ _ g4 (grows_trans P _ _ _ g5
      (grows_trans P _ _ _ g6 (grows_trans P _ _ _ g7
        (grows_trans P _ _ _ g8 (grows_trans P _ _ _ g9 g10)))))
    obtain ⟨m', hm', ht⟩ := hins
    exact incompat_mem_persist P _ _ gtail u _ m' hm' ht

theorem compileOne_inserts (P : List String) (index : String → List String)
    (dfs : Bool) (gv : String) (s : Store) (u : String) (m : Mod) (s' : Store)
    (hp : storePids s = P) (hidx : ∀ pid, index pid ≠ [] → pid ∈ P)
    (hm : storeGet s u = some m)
    (hok : compileOne index dfs gv s u = .ok s') :
    (∀ x ∈ m.raw.loadafter, index (lowerStr x) ≠ [] →
      (∃ m', storeGet s' u = some m'
        ∧ (lowerStr x, true) ∈ m'.order "loadTheseBefore")
      ∧ (∀ du ∈ index (lowerStr x), storeGet s du ≠ none →
        ∃ dm', storeGet s' du = some dm'
          ∧ (m.raw.packageid, false) ∈ dm'.order "loadTheseAfter"))
    ∧ (∀ x ∈ m.raw.loadbefore, index (lowerStr x) ≠ [] →
      (∃ m', storeGet s' u = some m'
        ∧ (lowerStr x, true) ∈ m'.order "loadTheseAfter")
      ∧ (∀ du ∈ index (lowerStr x), storeGet s du ≠ none →
        ∃ dm', storeGet s' du = some dm'
          ∧ (m.raw.packageid, false) ∈ dm'.order "loadTheseBefore"))
    ∧ (∀ x ∈ m.raw.incompatiblewith, lowerStr x ∈ P →
      ∃ m', storeGet s' u = some m'
        ∧ lowerStr x ∈ m'.incompatibilities) := by
  rw [compileOne, hm] at hok
  dsimp only at hok
  rcases hsp : splitDot gv with _ | ⟨ma, rest1⟩
  · rw [hsp] at hok
    exact Except.noConfusion hok
  · rcases rest1 with _ | ⟨mi, rest2⟩
    · rw [hsp] at hok
      exact Except.noConfusion hok
    · rw [hsp] at hok
      injection hok with hok
      subst hok
      have gA := processDependencies_grows P index dfs s u
        m.raw.moddependencies hp hidx
      have pA := (grows_storePids P _ _ gA).trans hp
      obtain ⟨mA, hmA, rA⟩ := grows_storeGet P _ _ gA u m hm
      have hrawA : mA.raw = m.raw := rA.2.1.symm
      have main := compileOneVersioned_inserts P index dfs ma mi _ u m pA
        hidx mA hmA hrawA
      refine ⟨?_, ?_, main.2.2⟩
      · intro x hx hne
        refine ⟨(main.1 x hx hne).1, ?_⟩
        intro du hdu hnn
        exact (main.1 x hx hne).2 du hdu (grows_ne_none P _ _ gA du hnn)
      · intro x hx hne
        refine ⟨(main.2.1 x hx hne).1, ?_⟩
        intro du hdu hnn
        exact (main.2.1 x hx hne).2 du hdu (grows_ne_none P _ _ gA du hnn)

theorem compileList_append (index : String → List String) (dfs : Bool)
    (gv : String) :
    ∀ (l1 l2 : List String) (s s' : Store),
      compileList index dfs gv s (l1 ++ l2) = .ok s' →
      ∃ s1, compileList index dfs gv s l1 = .ok s1
        ∧ compileList index dfs gv s1 l2 = .ok s' := by
  intro l1
  induction l1 with
  | nil =>
      intro l2 s s' h
      exact ⟨s, rfl, h⟩
  | cons v rest ih =>
      intro l2 s s' h
      rw [List.cons_append, compileList] at h
      rw [compileList]
      rcases hc : compileOne index dfs gv s v with e | sv
      · rw [hc] at h
        exact Except.noConfusion h
      · rw [hc] at h
        obtain ⟨s1, h1, h2⟩ := ih l2 sv s' h
        exact ⟨s1, h1, h2⟩

theorem compileList_inserts (P : List String) (index : String → List String)
    (dfs : Bool) (gv : String) (uuids : List String) (s s' : Store)
    (u : String) (m : Mod)
    (hp : storePids s = P) (hidx : ∀ pid, index pid ≠ [] → pid ∈ P)
    (hm : storeGet s u = some m) (hu : u ∈ uuids)
    (hok : compileList index dfs gv s uuids = .ok s') :
    (∀ x ∈ m.raw.loadafter, index (lowerStr x) ≠ [] →
      (∃ m', storeGet s' u = some m'
        ∧ (lowerStr x, true) ∈ m'.order "loadTheseBefore")
      ∧ (∀ du ∈ index (lowerStr x), storeGet s du ≠ none →
        ∃ dm', storeGet s' du = some dm'
          ∧ (m.raw.packageid, false) ∈ dm'.order "loadTheseAfter"))
    ∧ (∀ x ∈ m.raw.loadbefore, index (lowerStr x) ≠ [] →
      (∃ m', storeGet s' u = some m'
        ∧ (lowerStr x, true) ∈ m'.order "loadTheseAfter")
      ∧ (∀ du ∈ index (lowerStr x), storeGet s du ≠ none →
        ∃ dm', storeGet s' du = some dm'
          ∧ (m.raw.packageid, false) ∈ dm'.order "loadTheseBefore"))
    ∧ (∀ x ∈ m.raw.incompatiblewith, lowerStr x ∈ P →
      ∃ m', storeGet s' u = some m'
        ∧ lowerStr x ∈ m'.incompatibilities) := by
  obtain ⟨l1, l2, hsplit⟩ := List.append_of_mem hu
  subst hsplit
  obtain ⟨sMid, hc1, hc2⟩ := compileList_append index dfs gv l1 (u :: l2)
    s s' hok
  rw [compileList] at hc2
  rcases hcu : compileOne index dfs gv sMid u with e | sNext
  · rw [hcu] at hc2
    exact Except.noConfusion hc2
  · rw [hcu] at hc2
    have g1 := compileList_grows P index dfs gv l1 s sMid hp hidx hc1
    have p1 := (grows_storePids P _ _ g1).trans hp
    obtain ⟨m1, hm1, r1⟩ := grows_storeGet P _ _ g1 u m hm
    have hraw1 : m1.raw = m.raw := r1.2.1.symm
    have main := compileOne_inserts P index dfs gv sMid u m1 sNext p1 hidx
      hm1 hcu
    have gco := compileOne_grows P index dfs gv sMid u sNext p1 hidx hcu
    have p2 := (grows_storePids P _ _ gco).trans p1
    have g2 := compileList_grows P index dfs gv l2 sNext s' p2 hidx hc2
    refine ⟨?_, ?_, ?_⟩
    · intro x hx hne
      have hx1 : x ∈ m1.raw.loadafter := by
        rw [hraw1]
        exact hx
      have hh := main.1 x hx1 hne
      constructor
      · obtain ⟨m', hm', ht⟩ := hh.1
        exact order_mem_persist P _ _ g2 u _ _ m' hm' ht
      · intro du hdu hnn
        have hnnM := grows_ne_none P _ _ g1 du hnn
        obtain ⟨dm', hdm', hdt⟩ := hh.2 du hdu hnnM
        obtain ⟨dm2, hdm2, hdt2⟩ := order_mem_persist P _ _ g2 du _ _ dm'
          hdm' hdt
        refine ⟨dm2, hdm2, ?_⟩
        rw [show m.raw.packageid = m1.raw.packageid from by rw [hraw1]]
        exact hdt2
    · intro x hx hne
      have hx1 : x ∈ m1.raw.loadbefore := by
        rw [hraw1]
        exact hx
      have hh := main.2.1 x hx1 hne
      constructor
      · obtain ⟨m', hm', ht⟩ := hh.1
        exact order_mem_persist P _ _ g2 u _ _ m' hm' ht
      · intro du hdu hnn
        have hnnM := grows_ne_none P _ _ g1 du hnn
        obtain ⟨dm', hdm', hdt⟩ := hh.2 du hdu hnnM
        obtain ⟨dm2, hdm2, hdt2⟩ := order_mem_persist P _ _ g2 du _ _ dm'
          hdm' hdt
        refine ⟨dm2, hdm2, ?_⟩
        rw [show m.raw.packageid = m1.raw.packageid from by rw [hraw1]]
        exact hdt2
    · intro x hx hdep
      have hx1 : x ∈ m1.raw.incompatiblewith := by
        rw [hraw1]
        exact hx
      obtain ⟨m', hm', ht⟩ := main.2.2 x hx1 hdep
      exact incompat_mem_persist P _ _ g2 u _ m' hm' ht

/-! ### `get_mods_from_list` (metadata.py lines 1429-1568) -/

/-- Python `needle in hay` substring test, structurally over character
lists. -/
def containsSub (needle : List Char) : List Char → Bool
  | [] => needle.isEmpty
  | c :: t => needle.isPrefixOf (c :: t) || containsSub needle t

/-- Python `needle in hay` on strings. -/
def strContains (hay needle : String) : Bool := containsSub needle.data hay.data

/-- Python `str.replace("_steam", "")`: left-to-right removal of every
(non-overlapping) occurrence. Structural recursion on a character budget so
that it is kernel-computable; each step consumes at least one character. -/
def stripSteamGo : Nat → List Char → List Char
  | _, [] => []
  | 0, l => l
  | k + 1, c :: t =>
      if ("_steam".data).isPrefixOf (c :: t) then stripSteamGo k (t.drop 5)
      else c :: stripSteamGo k t

/-- `package_id_normalized.replace("_steam", "")` (metadata.py line 1487). -/
def stripSteam (s : String) : String := ⟨stripSteamGo s.data.length s.data⟩

/-- Numeric value of a digit run. -/
def digitsVal (l : List Char) : Nat :=
  l.foldl (fun a c => a * 10 + (c.toNat - 48)) 0

/-- The natural-sort key of a string: maximal digit runs become numbers,
everything else stays text (the `natsort` library's default key). Structural
on a character budget; every run is nonempty. -/
def natKeyGo : Nat → List Char → List (Nat ⊕ List Char)
  | 0, _ => []
  | _, [] => []
  | k + 1, c :: t =>
      if c.isDigit then
        Sum.inl (digitsVal ((c :: t).takeWhile Char.isDigit))
          :: natKeyGo k ((c :: t).dropWhile Char.isDigit)
      else
        Sum.inr ((c :: t).takeWhile (fun ch => ! ch.isDigit))
          :: natKeyGo k ((c :: t).dropWhile (fun ch => ! ch.isDigit))

/-- Lexicographic strict order on character lists (by code point). -/
def listCharLt : List Char → List Char → Bool
  | [], [] => false
  | [], _ :: _ => true
  | _ :: _, [] => false
  | c :: cs, d :: ds =>
      if c < d then true else if d < c then false else listCharLt cs ds

/-- Comparison of natural-sort keys: digit runs compare numerically, text
runs lexicographically, numbers order before text. -/
def natKeyLe : List (Nat ⊕ List Char) → List (Nat ⊕ List Char) → Bool
  | [], _ => true
  | _ :: _, [] => false
  | .inl n :: as, .inl m :: bs =>
      if n < m then true else if m < n then false else natKeyLe as bs
  | .inl _ :: _, .inr _ :: _ => true
  | .inr _ :: _, .inl _ :: _ => false
  | .inr x :: as, .inr y :: bs =>
      if listCharLt x y then true
      else if listCharLt y x then false
      else natKeyLe as bs

/-- `natsorted`'s underlying order on strings. -/
def natLe (a b : String) : Bool :=
  natKeyLe (natKeyGo a.data.length a.data) (natKeyGo b.data.length b.data)

/-- Insertion step of an insertion sort by natural order. -/
def insertSorted (x : String) : List String → List String
  | [] => [x]
  | y :: t => if natLe x y then x :: y :: t else y :: insertSorted x t

/-- The external `natsorted` collaborator (natsort library): ascending
natural sort, modelled as insertion sort by the natural-key order. -/
def natsorted (l : List String) : List String := l.foldr insertSorted []

/-- `duplicate_mods.setdefault(pid, []).append(uuid)` on one record. -/
def addToGroup : List (String × List String) → String → String →
    List (String × List String)
  | [], pid, u => [(pid, [u])]
  | (k, v) :: t, pid, u =>
      if k = pid then (k, v ++ [u]) :: t else (k, v) :: addToGroup t pid u

/-- The duplicate-mods dict (metadata.py lines 1454-1459): group uuids by
packageid over the whole store, keep only groups with more than one id. -/
def dupGroups (s : Store) : List (String × List String) :=
  (s.foldl (fun acc p => addToGroup acc p.2.raw.packageid p.1) []).filter
    (fun kv => kv.2.length > 1)

def groupGet (g : List (String × List String)) (k : String) : List String :=
  match g.find? (fun kv => kv.1 == k) with
  | some kv => kv.2
  | none => []

def groupHas (g : List (String × List String)) (k : String) : Bool :=
  (g.find? (fun kv => kv.1 == k)).isSome

/-- `target_id` of one active-list entry (metadata.py lines 1484-1496). -/
def entryTarget (pid : String) : String :=
  if strContains (lowerStr pid) "_steam" then stripSteam (lowerStr pid)
  else lowerStr pid

/-- `sources_order` of one entry (metadata.py lines 1500-1506). -/
def entrySources (pid : String) : List String :=
  if strContains (lowerStr pid) "_steam" then ["workshop", "local"]
  else ["expansion", "local", "workshop"]

/-- The per-record match test (metadata.py lines 1509-1516): the record's
packageid equals the normalized entry or its `_steam`-stripped form. -/
def gmatch (pid : String) (p : String × Mod) : Bool :=
  p.2.raw.packageid == lowerStr pid
    || p.2.raw.packageid == stripSteam (lowerStr pid)

/-- The uuids of the records an entry matches, in store order. -/
def matchedUuids (s : Store) (pid : String) : List String :=
  (s.filter (gmatch pid)).map Prod.fst

/-- Python dict write `paths_to_uuid[path] = uuid`: overwrite in place or
append. -/
def updAssoc : List (String × String) → String → String →
    List (String × String)
  | [], k, v => [(k, v)]
  | (a, b) :: t, k, v =>
      if a = k then (a, v) :: t else (a, b) :: updAssoc t k v

def lookupAssoc (l : List (String × String)) (k : String) : Option String :=
  (l.find? (fun kv => kv.1 == k)).map Prod.snd

/-- `paths_to_uuid` for one source (metadata.py lines 1530-1536): the paths
of the duplicate uuids whose `data_source` contains the source string. -/
def pathsFor (s : Store) (dupUuids : List String) (source : String) :
    List (String × String) :=
  dupUuids.foldl
    (fun acc du =>
      match storeGet s du with
      | some dm =>
          if strContains dm.raw.data_source source then
            updAssoc acc dm.raw.path du
          else acc
      | none => acc) []

/-- Duplicate resolution (metadata.py lines 1528-1553): first source in
priority order with any candidate paths wins; within it, the first path in
ascending natural sort. -/
def resolveDup (s : Store) (g : List (String × List String)) (target : String) :
    List String → Option String
  | [] => none
  | src :: rest =>
      let paths := pathsFor s (groupGet g target) src
      match natsorted (paths.map Prod.fst) with
      | [] => resolveDup s g target rest
      | p :: _ => lookupAssoc paths p

/-- The mutable state of `get_mods_from_list`'s entry loop. -/
structure GmflState where
  toPopulate : List String
  populated : List String
  dupProcessed : List String
  active : List String

/-- One iteration of the entry loop (metadata.py lines 1482-1553): append
the target to `to_populate`, then scan every record; a match on a
non-duplicated target is activated directly, a duplicated target is
resolved once through the source-priority procedure. -/
def processEntry (s : Store) (g : List (String × List String))
    (st : GmflState) (pid : String) : GmflState :=
  let target := entryTarget pid
  let st1 : GmflState := { st with toPopulate := st.toPopulate ++ [target] }
  s.foldl
    (fun acc p =>
      if gmatch pid p then
        if groupHas g target then
          if target ∈ acc.dupProcessed then acc
          else
            match resolveDup s g target (entrySources pid) with
            | some du =>
                { acc with
                  populated := acc.populated ++ [target],
                  dupProcessed := acc.dupProcessed ++ [target],
                  active := acc.active ++ [du] }
            | none => acc
        else
          { acc with
            populated := acc.populated ++ [target],
            active := acc.active ++ [p.1] }
      else acc)
    st1

/-- `get_mods_from_list` (metadata.py lines 1429-1568) on an already parsed
entry list: returns `(active_mods_uuids, inactive_mods_uuids,
duplicate_mods, missing_mods)`. `missing = list(set(to_populate) -
set(populated))` is a set difference, rendered as the membership-equivalent
filter. -/
def getModsFromList (s : Store) (entries : List String) :
    List String × List String × List (String × List String) × List String :=
  let g := dupGroups s
  let st := entries.foldl (processEntry s g) ⟨[], [], [], []⟩
  let missing := st.toPopulate.filter (fun t => ! st.populated.contains t)
  let inactive := (s.map Prod.fst).filter (fun u => ! st.active.contains u)
  (st.active, inactive, g, missing)

/-! ### Example records used in concrete theorems and witnesses -/

/-- A raw record with the given packageid, data source and path and no
declared rules. -/
def exRaw (pid src pth : String) : ModRaw :=
  ⟨pid, src, pth, none, [], [], [], [], [], [], [], [], [], []⟩

/-- A freshly parsed record: no derived relation data yet. -/
def exMod (r : ModRaw) : Mod := ⟨r, [], [], fun _ => []⟩

/-- Observation: the ordering set stored under `key` for record `u` of a
compilation result (empty when compilation failed or the record is absent). -/
def ordOf (r : Except String Store) (u key : String) : List (String × Bool) :=
  match r with
  | .ok s => match storeGet s u with | some m => m.order key | none => []
  | .error _ => []

/-- Observation: the incompatibility set for record `u` of a compilation
result. -/
def incOf (r : Except String Store) (u : String) : List String :=
  match r with
  | .ok s => match storeGet s u with | some m => m.incompatibilities | none => []
  | .error _ => []

/-- C9: a load-order rule whose target packageid has no installed record
adds nothing — `add_load_rule_to_mod` returns the store unchanged — and
consequently, after a compilation pass that starts from records with empty
ordering sets, every `(packageId, explicit)` tuple found in any ordering set
of any record names a packageid that was installed at compile time. -/
theorem C9_order_tuples_name_installed :
    (∀ (s : Store) (u d ek ik : String),
        pidToUuids s (lowerStr d) = [] →
        addLoadRuleToMod (pidToUuids s) s u d ek ik = s)
    ∧ (∀ (s : Store) (uuids0 : List String) (gv : String) (dfs : Bool)
        (sdb : Option (List (String × SteamEntry)))
        (cr ur : Option (List (String × RuleEntry))) (s' : Store),
        (∀ e ∈ s, ∀ key : String, e.2.order key = []) →
        compileMetadata s uuids0 gv dfs sdb cr ur = .ok s' →
        ∀ e' ∈ s', ∀ (key : String) (t : String × Bool), t ∈ e'.2.order key →
          ∃ e0 ∈ s, e0.2.raw.packageid = t.1) := by
  constructor
  · intro s u d ek ik h
    rw [addLoadRuleToMod]
    rcases storeGet s u with _ | m
    · rfl
    · dsimp only
      rw [if_pos h]
  · intro s uuids0 gv dfs sdb cr ur s' horder hok e' he' key t ht
    have hg := compileMetadata_grows s uuids0 gv dfs sdb cr ur s' hok
    obtain ⟨e0, he0, hrel⟩ := grows_storeGet_mem _ s s' hg e' he'
    rcases hrel.2.2.2.2.2.2 key t ht with h1 | h1
    · rw [horder e0 he0 key] at h1
      simp at h1
    · rw [storePids] at h1
      obtain ⟨e1, he1, hpid⟩ := List.mem_map.mp h1
      exact ⟨e1, he1, hpid⟩

/-- Witness for C9 at concrete inputs: a rule naming the uninstalled
`"ghost.mod"` leaves the store untouched, and after compiling a two-record
store every ordering tuple names an installed packageid. -/
theorem C9_order_tuples_name_installed_witness :
    (pidToUuids [("u1", exMod (exRaw "a.mod" "local" "/a"))] (lowerStr "Ghost.Mod") = []
      ∧ addLoadRuleToMod (pidToUuids [("u1", exMod (exRaw "a.mod" "local" "/a"))])
          [("u1", exMod (exRaw "a.mod" "local" "/a"))] "u1" "Ghost.Mod"
          "loadTheseBefore" "loadTheseAfter"
        = [("u1", exMod (exRaw "a.mod" "local" "/a"))])
    ∧ ∃ s', compileMetadata
          [("u1", exMod { exRaw "a.mod" "local" "/a" with loadafter := ["B.Mod"] }),
           ("u2", exMod (exRaw "b.mod" "local" "/b"))]
          [] "1.4.3600" false none none none = .ok s' ∧
        (∀ e' ∈ s', ∀ (key : String) (t : String × Bool), t ∈ e'.2.order key →
          ∃ e0 ∈ [("u1", exMod { exRaw "a.mod" "local" "/a" with loadafter := ["B.Mod"] }),
                  ("u2", exMod (exRaw "b.mod" "local" "/b"))],
            e0.2.raw.packageid = t.1) := by
  constructor
  · exact ⟨by decide, C9_order_tuples_name_installed.1 _ "u1" "Ghost.Mod"
      "loadTheseBefore" "loadTheseAfter" (by decide)⟩
  · have hord : ∀ e ∈ [("u1", exMod { exRaw "a.mod" "local" "/a" with loadafter := ["B.Mod"] }),
        ("u2", exMod (exRaw "b.mod" "local" "/b"))], ∀ key : String, e.2.order key = [] := by
      intro e he key
      rcases List.mem_cons.mp he with h | h
      · subst h; rfl
      · rcases List.mem_cons.mp h with h | h
        · subst h; rfl
        · simp at h
    rcases hok : compileMetadata
        [("u1", exMod { exRaw "a.mod" "local" "/a" with loadafter := ["B.Mod"] }),
         ("u2", exMod (exRaw "b.mod" "local" "/b"))]
        [] "1.4.3600" false none none none with e | s'
    · exact absurd hok (by intro hh; rw [show compileMetadata
        [("u1", exMod { exRaw "a.mod" "local" "/a" with loadafter := ["B.Mod"] }),
         ("u2", exMod (exRaw "b.mod" "local" "/b"))]
        [] "1.4.3600" false none none none
          = .ok ((compileMetadata
        [("u1", exMod { exRaw "a.mod" "local" "/a" with loadafter := ["B.Mod"] }),
         ("u2", exMod (exRaw "b.mod" "local" "/b"))]
        [] "1.4.3600" false none none none).toOption.getD []) from rfl] at hh; exact Except.noConfusion hh)
    · exact ⟨s', rfl, C9_order_tuples_name_installed.2 _ [] "1.4.3600" false
        none none none s' hord hok⟩

/-- C1: for installed records A and B where A's descriptor declares a
load-after rule naming B's packageid (matched case-insensitively), a
successful `compile_metadata` pass whose uuid list contains A leaves the
tuple `(B.packageid, explicit=True)` in A's `loadTheseBefore` set and the
implied tuple `(A.packageid, explicit=False)` in B's `loadTheseAfter` set;
symmetrically, with the two sets swapped, for a load-before declaration. -/
theorem C1_load_rule_bidirectional (s : Store) (uuids0 : List String)
    (gv : String) (dfs : Bool) (sdb : Option (List (String × SteamEntry)))
    (cr ur : Option (List (String × RuleEntry))) (s' : Store)
    (uA uB : String) (A B : Mod) (x : String)
    (hA : storeGet s uA = some A) (hB : storeGet s uB = some B)
    (hmem : uA ∈ (if uuids0.isEmpty then s.map Prod.fst else uuids0))
    (hpidB : B.raw.packageid = lowerStr x)
    (hok : compileMetadata s uuids0 gv dfs sdb cr ur = .ok s') :
    (x ∈ A.raw.loadafter →
      (∃ A', storeGet s' uA = some A'
        ∧ (B.raw.packageid, true) ∈ A'.order "loadTheseBefore")
      ∧ (∃ B', storeGet s' uB = some B'
        ∧ (A.raw.packageid, false) ∈ B'.order "loadTheseAfter"))
    ∧ (x ∈ A.raw.loadbefore →
      (∃ A', storeGet s' uA = some A'
        ∧ (B.raw.packageid, true) ∈ A'.order "loadTheseAfter")
      ∧ (∃ B', storeGet s' uB = some B'
        ∧ (A.raw.packageid, false) ∈ B'.order "loadTheseBefore")) := by
  obtain ⟨s1, hc, hpost⟩ :=
    compileMetadata_ok_elim s uuids0 gv dfs sdb cr ur s' hok
  have hidx : ∀ pid, pidToUuids s pid ≠ [] → pid ∈ storePids s :=
    pidToUuids_ne_nil_mem s
  have hduB : uB ∈ pidToUuids s (lowerStr x) := by
    have h0 := mem_pidToUuids s uB B hB
    rw [hpidB] at h0
    exact h0
  have hne : pidToUuids s (lowerStr x) ≠ [] := by
    intro hh
    rw [hh] at hduB
    simp at hduB
  have hnnB : storeGet s uB ≠ none := by
    rw [hB]
    exact fun h => Option.noConfusion h
  have main := compileList_inserts (storePids s) (pidToUuids s) dfs gv _
    s s1 uA A rfl hidx hA hmem hc
  have p1 : storePids s1 = storePids s :=
    grows_storePids _ _ _ (compileList_grows (storePids s) (pidToUuids s)
      dfs gv _ s s1 rfl hidx hc)
  have gpost : Grows (storePids s) s1 s' := by
    rw [hpost]
    exact postPhases_grows (storePids s) (pidToUuids s) s1 sdb cr ur p1 hidx
  constructor
  · intro hx
    have hh := main.1 x hx hne
    constructor
    · obtain ⟨A', hA', ht⟩ := hh.1
      obtain ⟨A2, hA2, ht2⟩ := order_mem_persist _ _ _ gpost uA _ _ A' hA' ht
      refine ⟨A2, hA2, ?_⟩
      rw [hpidB]
      exact ht2
    · obtain ⟨B', hB', ht⟩ := hh.2 uB hduB hnnB
      obtain ⟨B2, hB2, ht2⟩ := order_mem_persist _ _ _ gpost uB _ _ B' hB' ht
      exact ⟨B2, hB2, ht2⟩
  · intro hx
    have hh := main.2.1 x hx hne
    constructor
    · obtain ⟨A', hA', ht⟩ := hh.1
      obtain ⟨A2, hA2, ht2⟩ := order_mem_persist _ _ _ gpost uA _ _ A' hA' ht
      refine ⟨A2, hA2, ?_⟩
      rw [hpidB]
      exact ht2
    · obtain ⟨B', hB', ht⟩ := hh.2 uB hduB hnnB
      obtain ⟨B2, hB2, ht2⟩ := order_mem_persist _ _ _ gpost uB _ _ B' hB' ht
      exact ⟨B2, hB2, ht2⟩

/-- Witness for C1 at a concrete two-record store: `a.mod` declares
`loadAfter = ["B.Mod"]`; after compilation `("b.mod", true)` is in `a.mod`'s
`loadTheseBefore` set and `("a.mod", false)` is in `b.mod`'s
`loadTheseAfter` set. -/
theorem C1_load_rule_bidirectional_witness :
    "B.Mod" ∈ (exMod { exRaw "a.mod" "local" "/a" with
      loadafter := ["B.Mod"] }).raw.loadafter
    ∧ ∃ s', compileMetadata
        [("uA", exMod { exRaw "a.mod" "local" "/a" with
            loadafter := ["B.Mod"] }),
         ("uB", exMod (exRaw "b.mod" "local" "/b"))]
        [] "1.4.3600" false none none none = .ok s'
      ∧ (∃ A', storeGet s' "uA" = some A'
          ∧ (((exMod (exRaw "b.mod" "local" "/b")).raw.packageid, true)
              ∈ A'.order "loadTheseBefore"))
      ∧ (∃ B', storeGet s' "uB" = some B'
          ∧ (((exMod { exRaw "a.mod" "local" "/a" with
                loadafter := ["B.Mod"] }).raw.packageid, false)
              ∈ B'.order "loadTheseAfter")) := by
  refine ⟨by decide, ?_⟩
  rcases hok : compileMetadata
      [("uA", exMod { exRaw "a.mod" "local" "/a" with
          loadafter := ["B.Mod"] }),
       ("uB", exMod (exRaw "b.mod" "local" "/b"))]
      [] "1.4.3600" false none none none with e | s'
  · exact absurd hok (by
      intro hh
      rw [show compileMetadata
          [("uA", exMod { exRaw "a.mod" "local" "/a" with
              loadafter := ["B.Mod"] }),
           ("uB", exMod (exRaw "b.mod" "local" "/b"))]
          [] "1.4.3600" false none none none
        = .ok ((compileMetadata
          [("uA", exMod { exRaw "a.mod" "local" "/a" with
              loadafter := ["B.Mod"] }),
           ("uB", exMod (exRaw "b.mod" "local" "/b"))]
          [] "1.4.3600" false none none none).toOption.getD []) from rfl] at hh
      exact Except.noConfusion hh)
  · refine ⟨s', rfl, ?_⟩
    exact (C1_load_rule_bidirectional
      [("uA", exMod { exRaw "a.mod" "local" "/a" with
          loadafter := ["B.Mod"] }),
       ("uB", exMod (exRaw "b.mod" "local" "/b"))]
      [] "1.4.3600" false none none none s'
      "uA" "uB"
      (exMod { exRaw "a.mod" "local" "/a" with loadafter := ["B.Mod"] })
      (exMod (exRaw "b.mod" "local" "/b")) "B.Mod"
      rfl rfl (by decide) (by decide) hok).1 (by decide)

/-- C4: for a record A declaring an incompatibility with a packageid
(matched case-insensitively), after a successful `compile_metadata` pass
whose uuid list contains A and which started from a freshly parsed A (empty
derived incompatibility set), the lowercased id is in A's compiled
incompatibilities if and only if some record carried that packageid in the
store at compile time; an uninstalled id is never added. -/
theorem C4_incompatibility_iff_installed (s : Store) (uuids0 : List String)
    (gv : String) (dfs : Bool) (sdb : Option (List (String × SteamEntry)))
    (cr ur : Option (List (String × RuleEntry))) (s' : Store)
    (uA : String) (A : Mod) (x : String)
    (hA : storeGet s uA = some A)
    (hmem : uA ∈ (if uuids0.isEmpty then s.map Prod.fst else uuids0))
    (hx : x ∈ A.raw.incompatiblewith)
    (hinit : A.incompatibilities = [])
    (hok : compileMetadata s uuids0 gv dfs sdb cr ur = .ok s') :
    ∃ A', storeGet s' uA = some A'
      ∧ (lowerStr x ∈ A'.incompatibilities ↔ lowerStr x ∈ storePids s) := by
  have g := compileMetadata_grows s uuids0 gv dfs sdb cr ur s' hok
  obtain ⟨A', hA', rel⟩ := grows_storeGet _ s s' g uA A hA
  refine ⟨A', hA', ?_⟩
  constructor
  · intro hmemInc
    rcases rel.2.2.2.2.1 _ hmemInc with h | h
    · rw [hinit] at h
      simp at h
    · exact h
  · intro hinst
    obtain ⟨s1, hc, hpost⟩ :=
      compileMetadata_ok_elim s uuids0 gv dfs sdb cr ur s' hok
    have hidx : ∀ pid, pidToUuids s pid ≠ [] → pid ∈ storePids s :=
      pidToUuids_ne_nil_mem s
    have main := compileList_inserts (storePids s) (pidToUuids s) dfs gv _
      s s1 uA A rfl hidx hA hmem hc
    obtain ⟨A1, hA1, ht⟩ := main.2.2 x hx hinst
    have p1 : storePids s1 = storePids s :=
      grows_storePids _ _ _ (compileList_grows (storePids s) (pidToUuids s)
        dfs gv _ s s1 rfl hidx hc)
    have gpost : Grows (storePids s) s1 s' := by
      rw [hpost]
      exact postPhases_grows (storePids s) (pidToUuids s) s1 sdb cr ur p1 hidx
    obtain ⟨A2, hA2, ht2⟩ := incompat_mem_persist _ _ _ gpost uA _ A1 hA1 ht
    rw [hA'] at hA2
    injection hA2 with hh
    rw [hh]
    exact ht2

/-- Witness for C4 at a concrete store: `a.mod` declares an incompatibility
with `"X.Mod"`; `x.mod` is installed, so after compilation `"x.mod"` is in
`a.mod`'s incompatibilities (the iff holds with both sides true). -/
theorem C4_incompatibility_iff_installed_witness :
    "X.Mod" ∈ (exMod { exRaw "a.mod" "local" "/a" with
      incompatiblewith := ["X.Mod"] }).raw.incompatiblewith
    ∧ ∃ s', compileMetadata
        [("uA", exMod { exRaw "a.mod" "local" "/a" with
            incompatiblewith := ["X.Mod"] }),
         ("uX", exMod (exRaw "x.mod" "local" "/x"))]
        [] "1.4.3600" false none none none = .ok s'
      ∧ ∃ A', storeGet s' "uA" = some A'
        ∧ (lowerStr "X.Mod" ∈ A'.incompatibilities
            ↔ lowerStr "X.Mod" ∈ storePids
          [("uA", exMod { exRaw "a.mod" "local" "/a" with
              incompatiblewith := ["X.Mod"] }),
           ("uX", exMod (exRaw "x.mod" "local" "/x"))]) := by
  refine ⟨by decide, ?_⟩
  rcases hok : compileMetadata
      [("uA", exMod { exRaw "a.mod" "local" "/a" with
          incompatiblewith := ["X.Mod"] }),
       ("uX", exMod (exRaw "x.mod" "local" "/x"))]
      [] "1.4.3600" false none none none with e | s'
  · exact absurd hok (by
      intro hh
      rw [show compileMetadata
          [("uA", exMod { exRaw "a.mod" "local" "/a" with
              incompatiblewith := ["X.Mod"] }),
           ("uX", exMod (exRaw "x.mod" "local" "/x"))]
          [] "1.4.3600" false none none none
        = .ok ((compileMetadata
          [("uA", exMod { exRaw "a.mod" "local" "/a" with
              incompatiblewith := ["X.Mod"] }),
           ("uX", exMod (exRaw "x.mod" "local" "/x"))]
          [] "1.4.3600" false none none none).toOption.getD []) from rfl] at hh
      exact Except.noConfusion hh)
  · refine ⟨s', rfl, ?_⟩
    exact C4_incompatibility_iff_installed
      [("uA", exMod { exRaw "a.mod" "local" "/a" with
          incompatiblewith := ["X.Mod"] }),
       ("uX", exMod (exRaw "x.mod" "local" "/x"))]
      [] "1.4.3600" false none none none s' "uA"
      (exMod { exRaw "a.mod" "local" "/a" with
        incompatiblewith := ["X.Mod"] }) "X.Mod"
      rfl (by decide) (by decide) rfl hok

/-- C3 (code bug): when the game version has fewer than two dot-separated
components — in particular the empty string left in place when Version.txt
is missing (metadata.py line 82, lines 393-402) — the tuple unpacking
`major, minor = self.game_version.split(".")[:2]` at metadata.py line 665
raises an uncaught `ValueError` at the first record processed, instead of
skipping version-scoped blocks: compilation aborts, and even the
unconditional incompatibility/load-order blocks of that record are never
applied. -/
theorem C3_unparsable_version_raises :
    (∀ (index : String → List String) (dfs : Bool) (gv : String) (s : Store)
        (u : String) (m : Mod), storeGet s u = some m →
        (splitDot gv).length < 2 →
        compileOne index dfs gv s u
          = .error "ValueError: not enough values to unpack (expected 2)")
    ∧ compileMetadata [("u1", exMod (exRaw "a.mod" "local" "/a"))] [] "" false
        none none none
        = .error "ValueError: not enough values to unpack (expected 2)" := by
  constructor
  · intro index dfs gv s u m hm hlen
    rw [compileOne, hm]
    dsimp only
    rcases hsp : splitDot gv with _ | ⟨ma, rest⟩
    · rfl
    · rcases rest with _ | ⟨mi, rest2⟩
      · rfl
      · exfalso
        rw [hsp] at hlen
        simp at hlen
        omega
  · rfl

/-- Witness for C3's universally quantified part at a concrete input. -/
theorem C3_unparsable_version_raises_witness :
    storeGet [("u1", exMod (exRaw "a.mod" "local" "/a"))] "u1"
        = some (exMod (exRaw "a.mod" "local" "/a"))
    ∧ (splitDot "").length < 2
    ∧ compileOne (pidToUuids [("u1", exMod (exRaw "a.mod" "local" "/a"))]) false ""
        [("u1", exMod (exRaw "a.mod" "local" "/a"))] "u1"
        = .error "ValueError: not enough values to unpack (expected 2)" := by
  refine ⟨rfl, by decide, ?_⟩
  exact C3_unparsable_version_raises.1 _ false ""
    [("u1", exMod (exRaw "a.mod" "local" "/a"))] "u1"
    (exMod (exRaw "a.mod" "local" "/a")) rfl (by decide)

/-- C5: with game version `"1.4.3600"` the version-scoped dispatch applies a
block keyed `"v1.4"` and skips a block keyed `"v1.5"`; the match is a prefix
match anchored only at the key's beginning, so a key `"v1.44"` is (also)
applied. Stated end to end on `compile_metadata` over a store whose record
declares version-scoped incompatibilities under all three keys against
installed mods. -/
theorem C5_version_scoped_prefix_match :
    versionMatchKey "1" "4" "v1.4" = true
    ∧ versionMatchKey "1" "4" "v1.5" = false
    ∧ versionMatchKey "1" "4" "v1.44" = true
    ∧ ("x.mod" ∈ incOf (compileMetadata
        [("uC", exMod { exRaw "c.mod" "local" "/c" with
            incompatiblewithbyversion :=
              [("v1.4", ["x.mod"]), ("v1.5", ["y.mod"]), ("v1.44", ["z.mod"])] }),
         ("uX", exMod (exRaw "x.mod" "local" "/x")),
         ("uY", exMod (exRaw "y.mod" "local" "/y")),
         ("uZ", exMod (exRaw "z.mod" "local" "/z"))]
        [] "1.4.3600" false none none none) "uC"
      ∧ "y.mod" ∉ incOf (compileMetadata
        [("uC", exMod { exRaw "c.mod" "local" "/c" with
            incompatiblewithbyversion :=
              [("v1.4", ["x.mod"]), ("v1.5", ["y.mod"]), ("v1.44", ["z.mod"])] }),
         ("uX", exMod (exRaw "x.mod" "local" "/x")),
         ("uY", exMod (exRaw "y.mod" "local" "/y")),
         ("uZ", exMod (exRaw "z.mod" "local" "/z"))]
        [] "1.4.3600" false none none none) "uC"
      ∧ "z.mod" ∈ incOf (compileMetadata
        [("uC", exMod { exRaw "c.mod" "local" "/c" with
            incompatiblewithbyversion :=
              [("v1.4", ["x.mod"]), ("v1.5", ["y.mod"]), ("v1.44", ["z.mod"])] }),
         ("uX", exMod (exRaw "x.mod" "local" "/x")),
         ("uY", exMod (exRaw "y.mod" "local" "/y")),
         ("uZ", exMod (exRaw "z.mod" "local" "/z"))]
        [] "1.4.3600" false none none none) "uC") := by
  refine ⟨by decide, by decide, by decide, by decide, by decide, by decide⟩

theorem contains_eq_false_iff (l : List String) (a : String) :
    l.contains a = false ↔ a ∉ l := by
  simp

theorem gmfl_fold_nondup (s : Store) (pid : String) (l : List (String × Mod)) :
    ∀ (a : GmflState),
    l.foldl
      (fun acc p =>
        if gmatch pid p then
          if groupHas [] (entryTarget pid) then
            if entryTarget pid ∈ acc.dupProcessed then acc
            else
              match resolveDup s [] (entryTarget pid) (entrySources pid) with
              | some du =>
                  { acc with
                    populated := acc.populated ++ [entryTarget pid],
                    dupProcessed := acc.dupProcessed ++ [entryTarget pid],
                    active := acc.active ++ [du] }
              | none => acc
          else
            { acc with
              populated := acc.populated ++ [entryTarget pid],
              active := acc.active ++ [p.1] }
        else acc)
      a
    = { a with
        populated := a.populated
          ++ (l.filter (gmatch pid)).map (fun _ => entryTarget pid),
        active := a.active ++ (l.filter (gmatch pid)).map Prod.fst } := by
  induction l with
  | nil =>
      intro a
      simp
  | cons p t ih =>
      intro a
      rw [List.foldl_cons]
      by_cases hm : gmatch pid p = true
      · rw [if_pos hm]
        have hng : ¬ (groupHas [] (entryTarget pid) = true) := by
          rw [show groupHas [] (entryTarget pid) = false from rfl]
          exact Bool.false_ne_true
        rw [if_neg hng]
        rw [ih]
        simp [List.filter_cons, hm, List.append_assoc]
      · rw [if_neg hm]
        rw [ih]
        simp [List.filter_cons, hm]

theorem processEntry_nil (s : Store) (st : GmflState) (pid : String) :
    processEntry s [] st pid
      = { st with
          toPopulate := st.toPopulate ++ [entryTarget pid],
          populated := st.populated
            ++ (s.filter (gmatch pid)).map (fun _ => entryTarget pid),
          active := st.active ++ (s.filter (gmatch pid)).map Prod.fst } := by
  rw [processEntry]
  rw [gmfl_fold_nondup s pid s]

theorem gmfl_entries_nil (s : Store) (entries : List String) :
    ∀ (st : GmflState),
      (entries.foldl (processEntry s []) st).toPopulate
          = st.toPopulate ++ entries.map entryTarget
      ∧ (∀ t, t ∈ (entries.foldl (processEntry s []) st).populated ↔
          (t ∈ st.populated ∨ ∃ e ∈ entries, entryTarget e = t
            ∧ s.filter (gmatch e) ≠ []))
      ∧ (∀ u, u ∈ (entries.foldl (processEntry s []) st).active ↔
          (u ∈ st.active ∨ ∃ e ∈ entries, ∃ p ∈ s, gmatch e p = true
            ∧ p.1 = u)) := by
  induction entries with
  | nil =>
      intro st
      refine ⟨by simp, fun t => by simp, fun u => by simp⟩
  | cons e rest ih =>
      intro st
      rw [List.foldl_cons, processEntry_nil]
      obtain ⟨h1, h2, h3⟩ := ih { st with
        toPopulate := st.toPopulate ++ [entryTarget e],
        populated := st.populated
          ++ (s.filter (gmatch e)).map (fun _ => entryTarget e),
        active := st.active ++ (s.filter (gmatch e)).map Prod.fst }
      refine ⟨?_, ?_, ?_⟩
      · rw [h1]
        simp
      · intro t
        rw [h2 t]
        constructor
        · rintro (h | h)
          · rcases List.mem_append.mp h with h' | h'
            · exact Or.inl h'
            · obtain ⟨q, hq, hqt⟩ := List.mem_map.mp h'
              exact Or.inr ⟨e, List.mem_cons.mpr (Or.inl rfl), hqt,
                List.ne_nil_of_mem hq⟩
          · obtain ⟨e', he', ht, hf⟩ := h
            exact Or.inr ⟨e', List.mem_cons.mpr (Or.inr he'), ht, hf⟩
        · rintro (h | h)
          · exact Or.inl (List.mem_append.mpr (Or.inl h))
          · obtain ⟨e', he', ht, hf⟩ := h
            rcases List.mem_cons.mp he' with he'' | he''
            · subst he''
              refine Or.inl (List.mem_append.mpr (Or.inr ?_))
              rcases hfe : s.filter (gmatch e') with _ | ⟨q, qs⟩
              · exact absurd hfe hf
              · exact List.mem_map.mpr ⟨q, List.mem_cons.mpr (Or.inl rfl), ht⟩
            · exact Or.inr ⟨e', he'', ht, hf⟩
      · intro u
        rw [h3 u]
        constructor
        · rintro (h | h)
          · rcases List.mem_append.mp h with h' | h'
            · exact Or.inl h'
            · obtain ⟨q, hq, hqu⟩ := List.mem_map.mp h'
              have hq2 := List.mem_filter.mp hq
              exact Or.inr ⟨e, List.mem_cons.mpr (Or.inl rfl), q, hq2.1,
                hq2.2, hqu⟩
          · obtain ⟨e', he', p, hp, hgm, hpu⟩ := h
            exact Or.inr ⟨e', List.mem_cons.mpr (Or.inr he'), p, hp, hgm, hpu⟩
        · rintro (h | h)
          · exact Or.inl (List.mem_append.mpr (Or.inl h))
          · obtain ⟨e', he', p, hp, hgm, hpu⟩ := h
            rcases List.mem_cons.mp he' with he'' | he''
            · subst he''
              refine Or.inl (List.mem_append.mpr (Or.inr ?_))
              exact List.mem_map.mpr ⟨p, List.mem_filter.mpr ⟨hp, hgm⟩, hpu⟩
            · exact Or.inr ⟨e', he'', p, hp, hgm, hpu⟩

/-- C6: with one local-sourced and one workshop-sourced record sharing
packageid `"x.mod"`, the entry `"x.mod_steam"` selects the workshop copy
(source priority `["workshop", "local"]` because the `_steam` marker is
present), the plain entry `"x.mod"` selects the local copy (priority
`["expansion", "local", "workshop"]`), and within the first source with
candidates the first path in ascending natural sort wins (`"/w/2"` before
`"/w/10"`). -/
theorem C6_steam_marker_selects_workshop :
    entrySources "x.mod_steam" = ["workshop", "local"]
    ∧ entrySources "x.mod" = ["expansion", "local", "workshop"]
    ∧ (getModsFromList
        [("uL", exMod (exRaw "x.mod" "local" "/local/x")),
         ("uW", exMod (exRaw "x.mod" "workshop" "/workshop/x"))]
        ["x.mod_steam"]).1 = ["uW"]
    ∧ (getModsFromList
        [("uL", exMod (exRaw "x.mod" "local" "/local/x")),
         ("uW", exMod (exRaw "x.mod" "workshop" "/workshop/x"))]
        ["x.mod"]).1 = ["uL"]
    ∧ (getModsFromList
        [("u10", exMod (exRaw "x.mod" "workshop" "/w/10")),
         ("u2", exMod (exRaw "x.mod" "workshop" "/w/2"))]
        ["x.mod_steam"]).1 = ["u2"] := by
  refine ⟨by decide, by decide, by decide, by decide, by decide⟩

/-- C8 counterexample: the entry `"x.mod_steam"` whose target `"x.mod"` is
installed twice, both copies expansion-sourced, matches two installed
records, yet the duplicate-resolution loop only tries the sources
`["workshop", "local"]`, finds no path, never populates the target — so
`"x.mod"` is reported missing although it matches installed records,
contradicting "missing = requested packageIds with zero matches". -/
theorem C8_counterexample :
    entryTarget "x.mod_steam" = "x.mod"
    ∧ matchedUuids
        [("e1", exMod (exRaw "x.mod" "expansion" "/e1")),
         ("e2", exMod (exRaw "x.mod" "expansion" "/e2"))]
        "x.mod_steam" = ["e1", "e2"]
    ∧ storePids
        [("e1", exMod (exRaw "x.mod" "expansion" "/e1")),
         ("e2", exMod (exRaw "x.mod" "expansion" "/e2"))]
        = ["x.mod", "x.mod"]
    ∧ (getModsFromList
        [("e1", exMod (exRaw "x.mod" "expansion" "/e1")),
         ("e2", exMod (exRaw "x.mod" "expansion" "/e2"))]
        ["x.mod_steam"]).2.2.2 = ["x.mod"]
    ∧ (getModsFromList
        [("e1", exMod (exRaw "x.mod" "expansion" "/e1")),
         ("e2", exMod (exRaw "x.mod" "expansion" "/e2"))]
        ["x.mod_steam"]).1 = [] := by
  refine ⟨by decide, by decide, by decide, by decide, by decide⟩

/-- C8 amended: over a store with no duplicated packageids, the missing
list contains exactly the requested (normalized, `_steam`-stripped) targets
all of whose requesting entries match zero installed records, and every
active-list entry is the uuid of a record matched by some request; with
duplicated packageids the exactness can fail (see the counterexample: a
`_steam`-marked entry whose duplicated target has only expansion-sourced
copies is reported missing although installed). -/
theorem C8_missing_amended (s : Store) (entries : List String)
    (hdup : dupGroups s = []) :
    (∀ t, t ∈ (getModsFromList s entries).2.2.2 ↔
      ((∃ e ∈ entries, entryTarget e = t)
        ∧ ∀ e ∈ entries, entryTarget e = t → matchedUuids s e = []))
    ∧ (∀ u ∈ (getModsFromList s entries).1, ∃ p ∈ s, p.1 = u
        ∧ ∃ e ∈ entries, gmatch e p = true) := by
  rw [getModsFromList]
  dsimp only
  rw [hdup]
  obtain ⟨h1, h2, h3⟩ := gmfl_entries_nil s entries ⟨[], [], [], []⟩
  constructor
  · intro t
    rw [List.mem_filter]
    constructor
    · rintro ⟨htp, hnc⟩
      rw [h1] at htp
      simp only [List.nil_append] at htp
      obtain ⟨e, he, hte⟩ := List.mem_map.mp htp
      refine ⟨⟨e, he, hte⟩, ?_⟩
      intro e' he' hte'
      by_contra hne
      have hfil : s.filter (gmatch e') ≠ [] := by
        intro hh
        apply hne
        rw [matchedUuids, hh]
        rfl
      have hpop : t ∈ (entries.foldl (processEntry s [])
          ⟨[], [], [], []⟩).populated :=
        (h2 t).mpr (Or.inr ⟨e', he', hte', hfil⟩)
      have hc : (entries.foldl (processEntry s [])
          ⟨[], [], [], []⟩).populated.contains t = false := by
        rcases hb : (entries.foldl (processEntry s [])
            ⟨[], [], [], []⟩).populated.contains t with _ | _
        · rfl
        · rw [hb] at hnc
          exact absurd hnc (by simp)
      exact absurd hpop ((contains_eq_false_iff _ t).mp hc)
    · rintro ⟨⟨e, he, hte⟩, hall⟩
      refine ⟨?_, ?_⟩
      · rw [h1]
        simp only [List.nil_append]
        exact List.mem_map.mpr ⟨e, he, hte⟩
      · have hnp : t ∉ (entries.foldl (processEntry s [])
            ⟨[], [], [], []⟩).populated := by
          intro hp
          rcases (h2 t).mp hp with h | h
          · simp at h
          · obtain ⟨e', he', hte', hfil⟩ := h
            apply hfil
            have hmu := hall e' he' hte'
            rw [matchedUuids] at hmu
            exact List.map_eq_nil_iff.mp hmu
        rw [(contains_eq_false_iff _ t).mpr hnp]
        rfl
  · intro u hu
    rcases (h3 u).mp hu with h | h
    · simp at h
    · obtain ⟨e, he, p, hp, hgm, hpu⟩ := h
      exact ⟨p, hp, hpu, e, he, hgm⟩

/-- Witness for C8's amended theorem at a concrete duplicate-free store:
requesting `"missing.mod"` (no installed match) and `"a.mod"` (installed)
gives the stated missing characterization at `"missing.mod"`. -/
theorem C8_missing_amended_witness :
    dupGroups [("u1", exMod (exRaw "a.mod" "local" "/a"))] = []
    ∧ ("missing.mod" ∈ (getModsFromList
        [("u1", exMod (exRaw "a.mod" "local" "/a"))]
        ["missing.mod", "a.mod"]).2.2.2
      ↔ ((∃ e ∈ ["missing.mod", "a.mod"], entryTarget e = "missing.mod")
        ∧ ∀ e ∈ ["missing.mod", "a.mod"], entryTarget e = "missing.mod" →
            matchedUuids [("u1", exMod (exRaw "a.mod" "local" "/a"))] e
              = [])) :=
  ⟨by decide,
    (C8_missing_amended [("u1", exMod (exRaw "a.mod" "local" "/a"))]
      ["missing.mod", "a.mod"] (by decide)).1 "missing.mod"⟩

end RimSort
